import Mathlib

/-!
Verification of the factor computation graph engine of `spectre`
(`src/spectre/factors/factor.py`).

The development shallowly embeds the parts of `factor.py` that the claims
are about:

* missing values ("NaN") are modelled as `none : Option ℚ`, with the
  IEEE-754 behaviour of NaN made explicit (NaN propagates through
  arithmetic, every comparison against NaN is false, `torch.sort` places
  NaN after every number in ascending order);
* float32 arithmetic is idealized as exact rational arithmetic (all
  quantities exercised by the claims — halves, integers — are exact in
  float32);
* the graph protocol (`pre_compute_` / `compute_` / `clean_up_`) is
  embedded as state-passing functions over trees of nodes labelled with
  python object identities: two subtrees carrying the same identity model
  the same python object, which is how a DAG with fan-out presents itself
  to the recursive traversal of the source;
* the external engine (`revert_`, `group_by_`, `column_to_parallel_groupby_`)
  and the `Rolling` / tensor primitives of the (absent) `parallel` module
  are kept abstract as parameters, except where a claim needs their
  documented behaviour, in which case they are modelled from the spec;
* CUDA streams (`torch.cuda.Stream`) are device-level concurrency and are
  not modelled; the embedding follows the `down_stream is None` code path
  of `compute_`, which is the path on which the reference-count and cache
  logic of the claims lives (stream code only adds event waits).
-/

namespace Spectre

/-- A tensor cell: `none` models NaN ("missing"), `some q` a finite value. -/
abbrev Val := Option ℚ

/-- NaN-propagating addition (IEEE: NaN + x = NaN). -/
def vadd : Val → Val → Val
  | some a, some b => some (a + b)
  | _, _ => none

/-- NaN-propagating subtraction. -/
def vsub : Val → Val → Val
  | some a, some b => some (a - b)
  | _, _ => none

/-- NaN-propagating multiplication (IEEE: NaN * 0 = NaN). -/
def vmul : Val → Val → Val
  | some a, some b => some (a * b)
  | _, _ => none

/-- Strict greater-than on tensor cells: false whenever either side is
NaN (IEEE). -/
def vgt : Val → Val → Bool
  | some a, some b => decide (b < a)
  | _, _ => false

/-- Less-or-equal on tensor cells: false whenever either side is NaN
(IEEE). -/
def vle : Val → Val → Bool
  | some a, some b => decide (a ≤ b)
  | _, _ => false

/-! ## C6 — `CustomFactor.__init__` (factor.py lines 209-226)

```python
def __init__(self, win=None, inputs=None):
    super().__init__()
    if win:
        self.win = win
    if inputs:
        self.inputs = inputs
    assert isinstance(self.inputs, (list, tuple, type(None))), 'inputs must be a list.'
    assert (self.win >= (self._min_win or 1))
```

`win` follows python truthiness: passing `None` or `0` leaves the
class-level default `self.win` in place.  `self._min_win or 1` maps both
`None` and `0` to `1`. -/

/-- Python `self._min_win or 1`: `None` and `0` are falsy. -/
def minWinOr1 : Option Nat → Nat
  | none => 1
  | some 0 => 1
  | some m => m

/-- The `win` actually stored by `__init__`: the argument when truthy
(non-`None`, non-zero), otherwise the class-level default `clsWin`. -/
def effectiveWin (clsWin : Int) (argWin : Option Int) : Int :=
  match argWin with
  | none => clsWin
  | some w => if w = 0 then clsWin else w

/-- Model of `CustomFactor.__init__`: stores `win`/`inputs`, then asserts
the inputs type and `self.win >= (self._min_win or 1)`.  Returns the
stored `win` on success, the failed assertion message otherwise.
`inputsOk` stands for `isinstance(self.inputs, (list, tuple, type(None)))`. -/
def customFactorInit (clsWin : Int) (clsMinWin : Option Nat)
    (argWin : Option Int) (inputsOk : Bool) : Except String Int :=
  let w := effectiveWin clsWin argWin
  if ¬ inputsOk then .error "inputs must be a list."
  else if w < (minWinOr1 clsMinWin : Int) then .error "assert self.win >= (self._min_win or 1)"
  else .ok w

/-! ## C9 — `MultiRetSelector.compute` (factor.py lines 420-428)

```python
def compute(self, data, key):
    if len(data.shape) < 3:
        raise KeyError('This factor has only one return value, cannot slice.')
    elif data.shape[2] <= key:
        raise KeyError('OutOfBounds: factor has only ... return values, and slice is [...].'
                       .format(data.shape[2], key))
    return data[:, :, key]
```
-/

/-- A 2-dimensional panel tensor (rows × columns). -/
structure T2 where
  rows : Nat
  cols : Nat
  val : Nat → Nat → Val

/-- A 3-dimensional panel tensor; the third axis indexes the multiple
return values of a node. -/
structure T3 where
  rows : Nat
  cols : Nat
  chans : Nat
  val : Nat → Nat → Nat → Val

/-- A tensor of either dimensionality, as received by
`MultiRetSelector.compute` (`len(data.shape)` is 2 or 3). -/
inductive TensorND where
  | d2 (t : T2)
  | d3 (t : T3)

/-- The out-of-bounds message, with the actual channel count interpolated
exactly as the python `.format(data.shape[2], key)` call does. -/
def outOfBoundsMsg (chans key : Nat) : String :=
  "OutOfBounds: factor has only " ++ toString chans ++
    " return values, and slice is [" ++ toString key ++ "]."

/-- Model of `MultiRetSelector.compute`. -/
def multiRetSelectorCompute (data : TensorND) (key : Nat) : Except String T2 :=
  match data with
  | .d2 _ => .error "This factor has only one return value, cannot slice."
  | .d3 t =>
    if t.chans ≤ key then .error (outOfBoundsMsg t.chans key)
    else .ok ⟨t.rows, t.cols, fun i j => t.val i j key⟩

/-! ## C10 — `BaseFactor.__eq__` / `__ne__` (factor.py lines 66-72)

```python
def __eq__(self, other):
    from .filter import EqFactor
    return EqFactor(inputs=(self, other))

def __ne__(self, other):
    from .filter import NeFactor
    return NeFactor(inputs=(self, other))
```

Graph construction sugar only: the result is a new graph node, never a
boolean.  The `EqFactor` / `NeFactor` classes live in the absent
`filter.py` module; all `factor.py` knows (and all the claim needs) is
that they are factor nodes constructed with `inputs=(self, other)`, so
they are modelled as tagged nodes. -/

/-- A factor graph expression as built by the operator-overload sugar:
either an opaque leaf factor or a node of a named factor class applied to
its `inputs` tuple. -/
inductive FactorExpr where
  | leaf (name : String)
  | node (cls : String) (inputs : List FactorExpr)

/-- Model of `BaseFactor.__eq__`: builds `EqFactor(inputs=(self, other))`. -/
def baseFactorEq (a b : FactorExpr) : FactorExpr := .node "EqFactor" [a, b]

/-- Model of `BaseFactor.__ne__`: builds `NeFactor(inputs=(self, other))`. -/
def baseFactorNe (a b : FactorExpr) : FactorExpr := .node "NeFactor" [a, b]

/-! ## C7 — `ShiftFactor.compute` (factor.py lines 431-440)

```python
def compute(self, data):
    shift = data.roll(self.periods, dims=1)
    if self.periods > 0:
        shift[:, 0:self.periods] = np.nan
    else:
        shift[:, self.periods:] = np.nan
    return shift
```

`torch.roll` rotates each row circularly (`out[j] = in[(j - p) mod n]`);
the slice assignment then blanks the vacated positions.  Note that python
slicing clamps: for `p < 0` the slice `[p:]` starts at `max(n + p, 0)`,
and for `p = 0` it is the whole row. -/

/-- Model of `torch.roll(p, dims=1)` on one row. -/
def torchRoll (p : Int) (row : List Val) : List Val :=
  List.ofFn fun j : Fin row.length =>
    row.getD ((((j : Nat) : Int) - p).emod row.length).toNat none

/-- `ShiftFactor.compute` restricted to one row of the panel. -/
def shiftRow (p : Int) (row : List Val) : List Val :=
  let n := row.length
  let rolled := torchRoll p row
  if 0 < p then
    List.ofFn fun j : Fin n =>
      if ((j : Nat) : Int) < p then none else rolled.getD (j : Nat) none
  else
    List.ofFn fun j : Fin n =>
      if ((n : Int) + p ≤ ((j : Nat) : Int) ∨ p = 0) then none else rolled.getD (j : Nat) none

/-- Model of `ShiftFactor.compute` on the whole 2-D panel (rows are
independent). -/
def shiftFactorCompute (p : Int) (data : List (List Val)) : List (List Val) :=
  data.map (shiftRow p)

/-! ## C5 — `RankFactor.compute` (factor.py lines 458-471)

```python
def compute(self, data):
    if not self.ascending:
        filled = data.clone()
        filled.masked_fill_(torch.isnan(data), -np.inf)
    else:
        filled = data
    _, indices = torch.sort(filled, dim=1, descending=not self.ascending)
    _, indices = torch.sort(indices, dim=1)
    rank = indices.float() + 1.
    rank.masked_fill_(torch.isnan(data), np.nan)
    return rank
```

`torch.sort` sorts NaN after every number in ascending order; in the
descending branch the NaNs have been rewritten to minus-infinity first,
which likewise sorts them to the end.  The sort is modelled as stable
(torch leaves tie order unspecified; ties can only be equal data values
or the padding, whose eventual ranks are overwritten with NaN). -/

/-- Stable insertion into a sorted list of (position, key) pairs:
`le a b` means a key `a` already in the list may stay in front of an
incoming key `b`. -/
def insertPairBy (le : κ → κ → Bool) (x : Nat × κ) : List (Nat × κ) → List (Nat × κ)
  | [] => [x]
  | h :: t => if le h.2 x.2 then h :: insertPairBy le x t else x :: h :: t

/-- The indices returned by `torch.sort` for one row: the list of
positions of the row in key order (stable). -/
def argsortBy (le : κ → κ → Bool) (keys : List κ) : List Nat :=
  (keys.enum.foldl (fun acc p => insertPairBy le p acc) []).map Prod.fst

/-- Ascending sort key order on cells, NaN greatest (`torch.sort`
ascending). -/
def ascKeyLe : Val → Val → Bool
  | some a, some b => decide (a ≤ b)
  | some _, none => true
  | none, some _ => false
  | none, none => true

/-- Descending sort order on cells after `masked_fill_(isnan, -inf)`:
`le a b` iff `a ≥ b` with NaN read as minus-infinity. -/
def descKeyLe : Val → Val → Bool
  | some a, some b => decide (b ≤ a)
  | some _, none => true
  | none, some _ => false
  | none, none => true

/-- `RankFactor.compute` restricted to one date row. -/
def rankRow (ascending : Bool) (row : List Val) : List Val :=
  let idx1 : List Nat :=
    if ascending then argsortBy ascKeyLe row else argsortBy descKeyLe row
  let idx2 : List Nat := argsortBy (fun a b : Nat => decide (a ≤ b)) idx1
  (List.range row.length).map fun j =>
    match row.getD j none with
    | none => none
    | some _ => some ((idx2.getD j 0 : ℚ) + 1)

/-- Model of `RankFactor.compute` on the whole panel (each date row is
independent). -/
def rankFactorCompute (ascending : Bool) (data : List (List Val)) : List (List Val) :=
  data.map (rankRow ascending)

/-! ## C4 — `QuantileFactor.compute` (factor.py lines 501-530)

```python
def compute(self, data):
    if data.dtype == torch.bool:
        data = data.char()
    if data.shape[1] == 1:  # if only one asset in universe
        return data.new_full(data.shape, 0, dtype=torch.float32)
    x, _ = torch.sort(data, dim=1)
    mask = torch.isnan(data)
    act_size = data.shape[1] - mask.sum(dim=1)
    q = np.linspace(0, 1, self.bins + 1, dtype=np.float32)
    q = torch.tensor(q[:, None], device=data.device)
    q_index = q * (act_size - 1)
    q_weight = q % 1
    q_index = q_index.long()
    q_next = q_index + 1
    q_next[-1] = act_size - 1
    rows = torch.arange(data.shape[0])
    b_start = x[rows, q_index]
    b = b_start + (x[rows, q_next] - b_start) * q_weight
    b[0] -= 1
    b = b[:, :, None]
    ret = data.new_full(data.shape, np.nan, dtype=torch.float32)
    for start, end, tile in zip(b[:-1], b[1:], range(self.bins)):
        ret[(data > start) & (data <= end)] = tile + 1.
    return ret
```

All operations are row-independent, so the embedding works per row.
`.long()` truncates toward zero; tensor indexing accepts negative indices
(python wrap-around), which the all-NaN row (`act_size = 0`) exercises.
`np.linspace(0, 1, bins + 1)` is `j / bins`, idealized as exact
rationals. -/

/-- Truncation toward zero (`.long()` on a float tensor). -/
def qtrunc (x : ℚ) : Int := if 0 ≤ x then ⌊x⌋ else -(⌊-x⌋)

/-- Stable insertion of a rational into a sorted list. -/
def qinsert (x : ℚ) : List ℚ → List ℚ
  | [] => [x]
  | h :: t => if h ≤ x then h :: qinsert x t else x :: h :: t

/-- Insertion sort of a rational list, ascending. -/
def qsort (l : List ℚ) : List ℚ := l.foldr qinsert []

/-- The values returned by `torch.sort(data, dim=1)` for one row: the
numeric values in ascending order followed by the NaNs. -/
def sortNanLast (row : List Val) : List Val :=
  (qsort (row.filterMap id)).map some ++ List.replicate (row.count none) none

/-- Tensor indexing with one (possibly negative) integer index: python
wrap-around for negative indices down to minus the length.  (An index
outside that range raises in torch; it is never produced by
`QuantileFactor`.) -/
def tget (x : List Val) (i : Int) : Val :=
  if 0 ≤ i then x.getD i.toNat none
  else if 0 ≤ i + x.length then x.getD (i + x.length).toNat none
  else none

/-- Assignment to the last element of a list (`q_next[-1] = ...`). -/
def setLastTo (v : Int) : List Int → List Int
  | [] => []
  | [_] => [v]
  | h :: t => h :: setLastTo v t

/-- Three-list `zipWith`. -/
def zipW3 (f : α → β → γ → δ) : List α → List β → List γ → List δ
  | a :: as_, b :: bs, c :: cs => f a b c :: zipW3 f as_ bs cs
  | _, _, _ => []

/-- The `bins + 1` breakpoints the quantile code computes for one row:
`b = b_start + (x[q_next] - b_start) * q_weight`, then `b[0] -= 1`. -/
def quantileBreakpoints (bins : Nat) (row : List Val) : List Val :=
  let x := sortNanLast row
  let act : Int := (row.length : Int) - (row.count none : Int)
  let q : List ℚ := (List.range (bins + 1)).map (fun j => (j : ℚ) / (bins : ℚ))
  let qIndex : List Int := q.map (fun qq => qtrunc (qq * ((act : ℚ) - 1)))
  let qWeight : List ℚ := q.map (fun qq => qq - (⌊qq⌋ : ℚ))
  let qNext : List Int := setLastTo (act - 1) (qIndex.map (· + 1))
  let bks : List Val := zipW3 (fun qi qn w =>
      vadd (tget x qi) (vmul (vsub (tget x qn) (tget x qi)) (some w))) qIndex qNext qWeight
  match bks with
  | [] => []
  | h :: t => vsub h (some 1) :: t

/-- The bucket-assignment loop of the quantile code for one cell `v`:
`ret[(data > start) & (data <= end)] = tile + 1.` over consecutive
breakpoint pairs, later tiles overwriting earlier ones. -/
def quantileLabel (bks : List Val) (v : Val) : Val :=
  ((bks.zip (bks.drop 1)).enum).foldl
    (fun acc pr => if vgt v pr.2.1 && vle v pr.2.2 then some ((pr.1 : ℚ) + 1) else acc) none

/-- `QuantileFactor.compute` restricted to one date row (the general,
more-than-one-column branch). -/
def quantileRow (bins : Nat) (row : List Val) : List Val :=
  row.map (quantileLabel (quantileBreakpoints bins row))

/-- Model of `QuantileFactor.compute` on the whole panel.  A
single-column panel (`data.shape[1] == 1`, "only one asset in universe")
short-circuits to an all-zero result. -/
def quantileFactorCompute (bins : Nat) (data : List (List Val)) : List (List Val) :=
  if (data.headD []).length = 1 then data.map (fun r => r.map fun _ => some 0)
  else data.map (quantileRow bins)

/-! ## The graph protocol (factor.py lines 15-403)

`BaseFactor` / `CustomFactor` objects form a DAG through their `inputs`
and `mask` references.  The recursive traversals (`pre_compute_`,
`compute_`, `get_total_backwards_`) walk this object graph structurally;
sharing is only observable through python object identity (the per-object
fields `_ref_count`, `_cache`).  The embedding therefore uses trees whose
nodes carry an identity label `nid`; per-pass state lives in `St`, keyed
by identity.  A well-formed labelling (`Resolves`) demands that equal
labels carry equal subtrees — exactly the picture the recursion sees when
subtrees are the same python object. -/

/-- A factor graph vertex: an opaque constant input (any non-`BaseFactor`
entry of `inputs`) or a `CustomFactor` with its object identity `nid`,
class name `ftype`, window, grouping key, input list and optional mask. -/
inductive FTree (V : Type) where
  | const (v : V)
  | node (nid : Nat) (ftype : String) (win : Nat) (groupby : String)
      (inputs : List (FTree V)) (mask : Option (FTree V))

/-- The object identity of a factor node (`none` for constants). -/
def FTree.idOf {V : Type} : FTree V → Option Nat
  | .const _ => none
  | .node i _ _ _ _ _ => some i

/-- The `groupby` of a factor (class attribute; `BaseFactor.groupby` is
`'asset'`). -/
def FTree.groupbyOf {V : Type} : FTree V → String
  | .const _ => "asset"
  | .node _ _ _ g _ _ => g

/-- The `type(factor).__name__` diagnostic string. -/
def FTree.ftypeOf {V : Type} : FTree V → String
  | .const _ => ""
  | .node _ f _ _ _ _ => f

/-- The `groupby` of `self._mask` (the value when absent is irrelevant). -/
def maskGroupby {V : Type} : Option (FTree V) → String
  | none => "asset"
  | some m => m.groupbyOf

/-- The class name of `self._mask`. -/
def maskFtype {V : Type} : Option (FTree V) → String
  | none => ""
  | some m => m.ftypeOf

/-- Per-pass engine state: per-identity `_ref_count`, `_cache`, an
instrumentation counter of `compute` invocations, and the log of
`engine.column_to_parallel_groupby_` registrations. -/
structure St (V : Type) where
  refs : Nat → Nat
  cache : Nat → Option V
  evals : Nat → Nat
  regs : List String

/-- The state before a fresh execution pass (as left by `clean_up_`). -/
def cleanSt (V : Type) : St V :=
  ⟨fun _ => 0, fun _ => none, fun _ => 0, []⟩

/-- The external collaborators of a node, abstract: the node's own pure
`compute` (dispatched by class name), the engine's `revert_` and
`group_by_` reshapers, `masked_fill` against a negated mask, and the
`Rolling` window adapter (`adjustments` is always `None` in factor.py). -/
structure Env (V : Type) where
  applyF : String → List V → V
  revertF : V → String → String → V
  groupByF : V → String → V
  maskedFillNotF : V → V → V
  rollingF : V → Nat → V

/-- Model of `BaseFactor._regroup_by_other` (factor.py lines 157-162). -/
def regroupByOther {V : Type} (env : Env V) (selfGb factGb factName : String) (v : V) : V :=
  if factGb ≠ selfGb then env.groupByF (env.revertF v factGb factName) selfGb else v

/-- Model of `CustomFactor._format_input` (factor.py lines 296-307):
regroup to the consumer's grouping, blank positions where the (regrouped)
mask is false, then wrap in a `Rolling` view when `win > 1`. -/
def formatInput {V : Type} (env : Env V) (selfGb : String) (selfWin : Nat)
    (upGb upName : String) (upOut : V)
    (maskGb maskName : String) (maskOut : Option V) : V :=
  let ret := regroupByOther env selfGb upGb upName upOut
  let ret :=
    match maskOut with
    | none => ret
    | some mo => env.maskedFillNotF ret (regroupByOther env selfGb maskGb maskName mo)
  if 1 < selfWin then env.rollingF ret selfWin else ret

mutual
/-- Model of `CustomFactor.pre_compute_` (factor.py lines 277-294)
together with `BaseFactor.pre_compute_` (lines 177-179): register the
grouping key, reset the cache fields, increment `_ref_count`, and recurse
into inputs and mask only on the first visit of the pass. -/
def preCompute {V : Type} (t : FTree V) (s : St V) : St V :=
  match t with
  | .const _ => s
  | .node i _ _ gb inputs mask =>
    let s0 : St V := { s with regs := gb :: s.regs }
    let s1 : St V := { s0 with cache := fun k => if k = i then none else s0.cache k }
    let s2 : St V := { s1 with refs := fun k => if k = i then s1.refs k + 1 else s1.refs k }
    if 1 < s2.refs i then s2
    else
      let s3 := preComputeList inputs s2
      match mask with
      | some m => preCompute m s3
      | none => s3

/-- `pre_compute_` over the `inputs` list (constants are skipped by the
`isinstance` test; `preCompute` on a `const` is the identity). -/
def preComputeList {V : Type} (l : List (FTree V)) (s : St V) : St V :=
  match l with
  | [] => s
  | t :: ts => preComputeList ts (preCompute t s)
end

mutual
/-- Model of `CustomFactor.compute_` (factor.py lines 309-359) on the
`down_stream is None` (CPU) path: decrement `_ref_count`, failing when it
would go negative; hand back (and possibly release) the cache; otherwise
compute the mask, the formatted inputs, and the node's own `compute`,
caching the result when consumers remain.  `evals` counts `compute`
invocations (the call-counter instrumentation the spec's test property
describes). -/
def computeF {V : Type} (env : Env V) (t : FTree V) (s : St V) : Except String (V × St V) :=
  match t with
  | .const v => .ok (v, s)
  | .node i ft win gb inputs mask =>
    if s.refs i = 0 then
      .error "Reference count error: Maybe you override pre_compute_, but did not call super() method."
    else
      let s1 : St V := { s with refs := fun k => if k = i then s.refs k - 1 else s.refs k }
      match s1.cache i with
      | some v =>
        let s2 : St V :=
          if s1.refs i = 0 then { s1 with cache := fun k => if k = i then none else s1.cache k }
          else s1
        .ok (v, s2)
      | none =>
        match computeMask env mask s1 with
        | .error e => .error e
        | .ok (maskOut, s2) =>
          match computeInputs env gb win (maskGroupby mask) (maskFtype mask) maskOut inputs s2 with
          | .error e => .error e
          | .ok (vals, s3) =>
            let out := env.applyF ft vals
            let s4 : St V := { s3 with evals := fun k => if k = i then s3.evals k + 1 else s3.evals k }
            let s5 : St V :=
              if 0 < s4.refs i then { s4 with cache := fun k => if k = i then some out else s4.cache k }
              else s4
            .ok (out, s5)

/-- The `mask_out = self._mask.compute_(self_stream)` step. -/
def computeMask {V : Type} (env : Env V) (mo : Option (FTree V)) (s : St V) :
    Except String (Option V × St V) :=
  match mo with
  | none => .ok (none, s)
  | some m =>
    match computeF env m s with
    | .error e => .error e
    | .ok (v, s') => .ok (some v, s')

/-- The input loop of `compute_`: factor inputs are computed recursively
and then formatted (`_format_input`); opaque constants pass through. -/
def computeInputs {V : Type} (env : Env V) (selfGb : String) (selfWin : Nat)
    (maskGb maskName : String) (maskOut : Option V)
    (l : List (FTree V)) (s : St V) : Except String (List V × St V) :=
  match l with
  | [] => .ok ([], s)
  | .const v :: ts =>
    match computeInputs env selfGb selfWin maskGb maskName maskOut ts s with
    | .error e => .error e
    | .ok (vs, s') => .ok (v :: vs, s')
  | .node i uft uwin ugb uins umask :: ts =>
    match computeF env (.node i uft uwin ugb uins umask) s with
    | .error e => .error e
    | .ok (out, s') =>
      let fout := formatInput env selfGb selfWin ugb uft out maskGb maskName maskOut
      match computeInputs env selfGb selfWin maskGb maskName maskOut ts s' with
      | .error e => .error e
      | .ok (vs, s'') => .ok (fout :: vs, s'')
end

mutual
/-- The pure value of each node: what `compute_` returns for it.  Each
input is formatted (`_format_input`) for its consumer before entering the
consumer's `compute`. -/
def denote {V : Type} (env : Env V) (t : FTree V) : V :=
  match t with
  | .const v => v
  | .node _ ft win gb inputs mask =>
    env.applyF ft
      (denoteInputs env gb win (maskGroupby mask) (maskFtype mask) (denoteMask env mask) inputs)

/-- The pure value of an optional mask. -/
def denoteMask {V : Type} (env : Env V) (mo : Option (FTree V)) : Option V :=
  match mo with
  | none => none
  | some m => some (denote env m)

/-- The pure formatted values of an input list. -/
def denoteInputs {V : Type} (env : Env V) (selfGb : String) (selfWin : Nat)
    (maskGb maskName : String) (maskOut : Option V) (l : List (FTree V)) : List V :=
  match l with
  | [] => []
  | .const v :: ts => v :: denoteInputs env selfGb selfWin maskGb maskName maskOut ts
  | .node i uft uwin ugb uins umask :: ts =>
    formatInput env selfGb selfWin ugb uft (denote env (.node i uft uwin ugb uins umask))
        maskGb maskName maskOut
      :: denoteInputs env selfGb selfWin maskGb maskName maskOut ts
end

/-- The identity of an optional mask, as a zero- or one-element list. -/
def maskIds {V : Type} : Option (FTree V) → List Nat
  | none => []
  | some m => m.idOf.toList

/-- Identities a node hands `compute_` / `pre_compute_` calls to: its
mask first (the `compute_` order), then its factor inputs. -/
def succIds {V : Type} : FTree V → List Nat
  | .const _ => []
  | .node _ _ _ _ inputs mask => maskIds mask ++ inputs.filterMap FTree.idOf

mutual
/-- Consistent identity labelling: `D` resolves every labelled node of
the tree to that node — i.e. equal identities denote the same python
object. -/
def Resolves {V : Type} (D : Nat → FTree V) : FTree V → Prop
  | .const _ => True
  | .node i ft win gb inputs mask =>
    D i = .node i ft win gb inputs mask ∧ ResolvesList D inputs ∧ ResolvesMask D mask

/-- `Resolves` over an input list. -/
def ResolvesList {V : Type} (D : Nat → FTree V) : List (FTree V) → Prop
  | [] => True
  | t :: ts => Resolves D t ∧ ResolvesList D ts

/-- `Resolves` over an optional mask. -/
def ResolvesMask {V : Type} (D : Nat → FTree V) : Option (FTree V) → Prop
  | none => True
  | some m => Resolves D m
end

/-- Reachability along `succIds` edges avoiding the identities in `A`. -/
inductive ReachA {V : Type} (D : Nat → FTree V) (A : List Nat) (i : Nat) : Nat → Prop where
  | refl : i ∉ A → ReachA D A i i
  | tail (j k : Nat) : ReachA D A i j → k ∈ succIds (D j) → k ∉ A → ReachA D A i k

mutual
/-- The call/visit footprint of one `compute_` call on `t` given the set
`A` of identities already visited this pass: how many `compute_` calls
each identity receives, and the list of identities newly visited
(opened), in `compute_`'s traversal order (mask before inputs). -/
def callsC {V : Type} (t : FTree V) (A : List Nat) : (Nat → Nat) × List Nat :=
  match t with
  | .const _ => (fun _ => 0, [])
  | .node i _ _ _ inputs mask =>
    if i ∈ A then (fun k => if k = i then 1 else 0, [])
    else
      let pm := callsCMask mask (i :: A)
      let pi := callsCList inputs (pm.2 ++ i :: A)
      (fun k => (if k = i then 1 else 0) + pm.1 k + pi.1 k, pi.2 ++ pm.2 ++ [i])

/-- Footprint of the mask step. -/
def callsCMask {V : Type} (mo : Option (FTree V)) (A : List Nat) : (Nat → Nat) × List Nat :=
  match mo with
  | none => (fun _ => 0, [])
  | some m => callsC m A

/-- Footprint of the input loop. -/
def callsCList {V : Type} (l : List (FTree V)) (A : List Nat) : (Nat → Nat) × List Nat :=
  match l with
  | [] => (fun _ => 0, [])
  | t :: ts =>
    let p := callsC t A
    let q := callsCList ts (p.2 ++ A)
    (fun k => p.1 k + q.1 k, q.2 ++ p.2)
end

mutual
/-- The same footprint in `pre_compute_`'s traversal order (inputs before
mask). -/
def callsP {V : Type} (t : FTree V) (A : List Nat) : (Nat → Nat) × List Nat :=
  match t with
  | .const _ => (fun _ => 0, [])
  | .node i _ _ _ inputs mask =>
    if i ∈ A then (fun k => if k = i then 1 else 0, [])
    else
      let pi := callsPList inputs (i :: A)
      let pm := callsPMask mask (pi.2 ++ i :: A)
      (fun k => (if k = i then 1 else 0) + pi.1 k + pm.1 k, pm.2 ++ pi.2 ++ [i])

/-- Footprint of the mask step (pre-compute order). -/
def callsPMask {V : Type} (mo : Option (FTree V)) (A : List Nat) : (Nat → Nat) × List Nat :=
  match mo with
  | none => (fun _ => 0, [])
  | some m => callsP m A

/-- Footprint of the input loop (pre-compute order). -/
def callsPList {V : Type} (l : List (FTree V)) (A : List Nat) : (Nat → Nat) × List Nat :=
  match l with
  | [] => (fun _ => 0, [])
  | t :: ts =>
    let p := callsP t A
    let q := callsPList ts (p.2 ++ A)
    (fun k => p.1 k + q.1 k, q.2 ++ p.2)
end

/-! ## C3 — `CustomFactor.get_total_backwards_` (factor.py lines 232-243)

```python
def get_total_backwards_(self) -> int:
    backwards = 0
    if self.inputs:
        backwards = max([up.get_total_backwards_() for up in self.inputs
                         if isinstance(up, BaseFactor)] or (0,))
    backwards = backwards + self.win - 1

    if self._mask:
        mask_backward = self._mask.get_total_backwards_()
        return max(mask_backward, backwards)
    else:
        return backwards
```
-/

/-- Python `max(list or (0,))`: `0` for the empty list, the plain maximum
otherwise. -/
def maxOr0 : List Int → Int
  | [] => 0
  | x :: xs => xs.foldl max x

mutual
/-- Model of `CustomFactor.get_total_backwards_`.  (A `const` is never
queried — the comprehension filters on `isinstance(up, BaseFactor)`.) -/
def getTotalBackwards {V : Type} : FTree V → Int
  | .const _ => 0
  | .node _ _ win _ inputs mask =>
    let backwards := maxOr0 (gtbList inputs) + win - 1
    match mask with
    | some m => max (getTotalBackwards m) backwards
    | none => backwards

/-- The look-back comprehension over `self.inputs` (skipping constants). -/
def gtbList {V : Type} : List (FTree V) → List Int
  | [] => []
  | .const _ :: ts => gtbList ts
  | .node i ft win gb ins mk :: ts => getTotalBackwards (.node i ft win gb ins mk) :: gtbList ts
end

/-! ## C8 — concrete tensor values for the masking claim

The masking step of `_format_input` is `ret.masked_fill(~mask, np.nan)`;
the tensor primitive and the `Rolling` adapter live outside `factor.py`
(torch, the absent `parallel` module) and are modelled here concretely,
the `Rolling` view from the spec's description. -/

/-- A tensor value for the C8 instantiation: a 2-D numeric panel, a 2-D
boolean panel (a mask's output), or a 3-D rolling view. -/
inductive TVal where
  | t2 (f : Nat → Nat → Val)
  | tb (f : Nat → Nat → Bool)
  | t3 (f : Nat → Nat → Nat → Val)

/-- Model of `ret.masked_fill(~mask, np.nan)`: keep `ret` where the
boolean mask is true, NaN where it is false.  (torch raises on a
non-boolean mask; that shape is never exercised.) -/
def maskedFillNotTV : TVal → TVal → TVal
  | .t2 f, .tb g => .t2 (fun i j => if g i j then f i j else none)
  | a, _ => a

/-- Modelled from the spec: the `Rolling` view of the absent `parallel`
module reinterprets a 2-D panel as 3-D (row, window position, window
offset), each window right-aligned at its position, positions before the
start of the series padded with "missing". -/
def rollingTV : TVal → Nat → TVal
  | .t2 f, w => .t3 (fun i r k => if w ≤ r + k + 1 then f i (r + k + 1 - w) else none)
  | a, _ => a

/-- A C8 environment: concrete masking and rolling, everything
engine-side (`compute` dispatch, `revert_`, `group_by_`) abstract. -/
def mkTensorEnv (ap : String → List TVal → TVal)
    (rv : TVal → String → String → TVal) (gb : TVal → String → TVal) : Env TVal :=
  ⟨ap, rv, gb, maskedFillNotTV, rollingTV⟩

/-- A consistently-labelled identity: `D x` is a node labelled `x` whose
subtree resolves through `D`. -/
def GoodAt {V : Type} (D : Nat → FTree V) (x : Nat) : Prop :=
  (D x).idOf = some x ∧ Resolves D (D x)

/-- What one phase of a traversal does, summarized: starting the phase at
the roots `S` with `A` already visited, it opens exactly `nw` (fresh,
duplicate-free, consistently labelled, reachable from `S` avoiding `A`,
closed under successors up to `A`), issues `c k` calls to each identity
`k` (one per root occurrence plus one per successor slot of an opened
node), and every root ends up visited. -/
def CallsSpecSub {V : Type} (D : Nat → FTree V) (S A : List Nat)
    (c : Nat → Nat) (nw : List Nat) : Prop :=
  nw.Nodup ∧ (∀ x ∈ nw, x ∉ A) ∧ (∀ x ∈ nw, GoodAt D x) ∧
  (∀ x ∈ nw, ∃ i ∈ S, ReachA D A i x) ∧
  (∀ j ∈ nw, ∀ k, k ∈ succIds (D j) → k ∈ nw ++ A) ∧
  (∀ k, c k = S.count k + ((nw.map fun j => (succIds (D j)).count k).sum)) ∧
  (∀ i ∈ S, i ∈ nw ++ A)

/-- The cache discipline mid-pass: a node computed this pass (`k ∈ F`)
holds its value exactly while consumers remain, every other node holds
nothing. -/
def CacheInv {V : Type} (env : Env V) (D : Nat → FTree V) (F : List Nat) (s : St V) : Prop :=
  (∀ k ∈ F, s.cache k = if 0 < s.refs k then some (denote env (D k)) else none) ∧
  (∀ k, k ∉ F → s.cache k = none)

/-! ## Concrete witness fixtures

A diamond DAG over `V = Nat`: `wN` feeds both `wA` and `wB`, which feed
the root `wR` — the smallest fan-out graph (`wN` has two distinct
downstream consumers). -/

/-- The shared upstream node of the witness diamond. -/
def wN : FTree Nat := .node 0 "SharedMA" 1 "asset" [] none

/-- First consumer of `wN`. -/
def wA : FTree Nat := .node 1 "SignalA" 1 "asset" [wN] none

/-- Second consumer of `wN`. -/
def wB : FTree Nat := .node 2 "SignalB" 1 "asset" [wN] none

/-- Root of the witness diamond. -/
def wR : FTree Nat := .node 3 "Root" 1 "asset" [wA, wB] none

/-- Identity resolver for the witness diamond. -/
def wD : Nat → FTree Nat
  | 0 => wN
  | 1 => wA
  | 2 => wB
  | _ => wR

/-- A concrete environment over `V = Nat` for the witness diamond. -/
def wEnv : Env Nat :=
  ⟨fun _ vs => vs.foldl (· + ·) 1, fun v _ _ => v, fun v _ => v, fun v _ => v, fun v _ => v⟩

/-! # Theorems -/

/-! ## C6 — window validation at construction -/

/-- C6 (counterexample): the claim says construction fails for *every*
integer `win` below the node's minimum window.  But python `if win:`
treats `win = 0` as "not specified": with class default `win = 1` and
`min_win = 1`, passing `win = 0 < 1` *succeeds* (the default is used). -/
theorem c6_zero_win_counterexample :
    customFactorInit 1 (some 1) (some 0) true = .ok 1 ∧ (0 : Int) < 1 := by
  exact ⟨rfl, by decide⟩

/-- C6 (amended): construction fails — immediately, with the
`assert self.win >= (self._min_win or 1)` error — exactly when the
*effective* window (the argument when truthy; the class default when the
argument is `None` or `0`) is below `self._min_win or 1`, and succeeds
otherwise. -/
theorem c6_window_validated_at_construction (clsWin : Int) (clsMinWin : Option Nat)
    (argWin : Option Int) :
    (customFactorInit clsWin clsMinWin argWin true = .ok (effectiveWin clsWin argWin)
      ↔ (minWinOr1 clsMinWin : Int) ≤ effectiveWin clsWin argWin)
    ∧ (effectiveWin clsWin argWin < (minWinOr1 clsMinWin : Int) →
        customFactorInit clsWin clsMinWin argWin true =
          .error "assert self.win >= (self._min_win or 1)") := by
  constructor
  · by_cases h : effectiveWin clsWin argWin < (minWinOr1 clsMinWin : Int)
    · simp [customFactorInit, h]
    · simp [customFactorInit, h]
      omega
  · intro h
    simp [customFactorInit, h]

/-- C6 witness: a window above the minimum is accepted; one below it is
rejected at construction time. -/
theorem c6_witness :
    customFactorInit 1 (some 3) (some 5) true = .ok 5 ∧
    customFactorInit 1 (some 3) (some 2) true =
      .error "assert self.win >= (self._min_win or 1)" :=
  ⟨(c6_window_validated_at_construction 1 (some 3) (some 5)).1.mpr (by decide),
   (c6_window_validated_at_construction 1 (some 3) (some 2)).2 (by decide)⟩

/-! ## C9 — multi-return selection errors -/

/-- C9: selecting channel `key` from a 3-D tensor fails with the
out-of-bounds message — which spells out the actual channel count —
whenever `key` is at or beyond the third-axis size; selecting from a
tensor with fewer than 3 axes fails with the single-return message; and
an in-bounds selection returns exactly `data[:, :, key]`. -/
theorem c9_multi_ret_selection (t : T3) (key : Nat) :
    (t.chans ≤ key →
      multiRetSelectorCompute (.d3 t) key = .error (outOfBoundsMsg t.chans key))
    ∧ (∀ t2 : T2, multiRetSelectorCompute (.d2 t2) key =
        .error "This factor has only one return value, cannot slice.")
    ∧ (key < t.chans →
        multiRetSelectorCompute (.d3 t) key = .ok ⟨t.rows, t.cols, fun i j => t.val i j key⟩)
    ∧ (∃ pre post, outOfBoundsMsg t.chans key = pre ++ toString t.chans ++ post) := by
  refine ⟨fun h => ?_, fun _ => rfl, fun h => ?_, "OutOfBounds: factor has only ",
    " return values, and slice is [" ++ toString key ++ "].", ?_⟩
  · simp [multiRetSelectorCompute, h]
  · simp [multiRetSelectorCompute, not_le.mpr h]
  · simp only [outOfBoundsMsg, String.append_assoc]

/-- C9 witness: a 2-channel tensor rejects channel 5 with the message
naming its 2 channels, and returns channel 1 when asked for it. -/
theorem c9_witness :
    multiRetSelectorCompute (.d3 ⟨1, 1, 2, fun _ _ k => some k⟩) 5 =
      .error (outOfBoundsMsg 2 5)
    ∧ multiRetSelectorCompute (.d3 ⟨1, 1, 2, fun _ _ k => some k⟩) 1 =
      .ok ⟨1, 1, fun i j => (⟨1, 1, 2, fun _ _ k => some k⟩ : T3).val i j 1⟩ :=
  ⟨(c9_multi_ret_selection ⟨1, 1, 2, fun _ _ k => some k⟩ 5).1 (by decide),
   (c9_multi_ret_selection ⟨1, 1, 2, fun _ _ k => some k⟩ 1).2.2.1 (by decide)⟩

/-! ## C10 — node equality builds graph nodes -/

/-- C10: `a == b` and `a != b` on factors construct `EqFactor` /
`NeFactor` graph nodes with `inputs = (a, b)` — never a truth value; even
`a == a` is a node with inputs `(a, a)`, and the `==` and `!=` results
are themselves different nodes. -/
theorem c10_eq_builds_nodes (a b : FactorExpr) :
    baseFactorEq a b = .node "EqFactor" [a, b]
    ∧ baseFactorNe a b = .node "NeFactor" [a, b]
    ∧ baseFactorEq a a = .node "EqFactor" [a, a]
    ∧ baseFactorEq a b ≠ baseFactorNe a b := by
  refine ⟨rfl, rfl, rfl, ?_⟩
  simp [baseFactorEq, baseFactorNe]

/-! ## C7 — shift semantics -/

/-- C7 (counterexample): the claim covers every integer `periods`, under
which `periods = 0` would be the identity (no vacated positions).  The
code's `else` branch blanks `shift[:, 0:]` — the whole row — so a zero
shift returns an all-missing tensor instead. -/
theorem c7_zero_periods_counterexample :
    shiftFactorCompute 0 [[some 1, some 2]] = [[none, none]]
    ∧ ([[none, none]] : List (List Val)) ≠ [[some 1, some 2]] := by
  refine ⟨by decide, by simp⟩

/-- C7 (amended): for every *nonzero* `periods`, each row is shifted by
`periods` positions — the leading `periods` positions (when positive) or
the trailing `|periods|` positions (when negative) become missing, and
every other position holds the original value from `periods` places
away; the sign of `periods` alone picks the direction.  (`periods = 0`
instead blanks the whole row.) -/
theorem c7_shift_semantics (p : Int) (hp : p ≠ 0) (data : List (List Val)) :
    shiftFactorCompute p data = data.map (fun row =>
      List.ofFn fun j : Fin row.length =>
        if (0 < p ∧ ((j : Nat) : Int) < p) ∨
            (p < 0 ∧ (row.length : Int) + p ≤ ((j : Nat) : Int)) then none
        else row.getD (((j : Nat) : Int) - p).toNat none) := by
  unfold shiftFactorCompute
  refine List.map_congr_left fun row _ => ?_
  unfold shiftRow torchRoll
  rcases lt_trichotomy p 0 with hneg | hzero | hpos
  · rw [if_neg (by omega)]
    congr 1
    funext j
    have hj : (j : Nat) < row.length := j.isLt
    by_cases hv : (row.length : Int) + p ≤ ((j : Nat) : Int)
    · rw [if_pos (Or.inl hv), if_pos (Or.inr ⟨hneg, hv⟩)]
    · rw [if_neg (by rintro (h | h); exacts [hv h, hp h]),
        if_neg (by rintro (⟨h1, _⟩ | ⟨_, h2⟩) <;> omega)]
      have hlt : (((j : Nat) : Int) - p).emod row.length = ((j : Nat) : Int) - p :=
        Int.emod_eq_of_lt (by omega) (by omega)
      rw [List.getD_eq_getElem _ _ (by simp [hj]), List.getElem_ofFn]
      simp [hlt]
  · exact absurd hzero hp
  · rw [if_pos hpos]
    congr 1
    funext j
    have hj : (j : Nat) < row.length := j.isLt
    by_cases hv : ((j : Nat) : Int) < p
    · rw [if_pos hv, if_pos (Or.inl ⟨hpos, hv⟩)]
    · rw [if_neg hv, if_neg (by rintro (⟨_, h1⟩ | ⟨h2, _⟩) <;> omega)]
      have hlt : (((j : Nat) : Int) - p).emod row.length = ((j : Nat) : Int) - p :=
        Int.emod_eq_of_lt (by omega) (by omega)
      rw [List.getD_eq_getElem _ _ (by simp [hj]), List.getElem_ofFn]
      simp [hlt]

/-- C7 witness: a shift by one vacates the leading position and moves the
values right. -/
theorem c7_witness :
    shiftFactorCompute 1 [[some 1, some 2, some 3]] = [[none, some 1, some 2]] := by
  have h := c7_shift_semantics 1 (by decide) [[some 1, some 2, some 3]]
  rw [h]
  decide

/-! ## C3 — look-back composition -/

/-- C3: a node's total look-back is the maximum of its factor inputs'
look-backs (`0` with no factor inputs) plus `win - 1`, widened to the
mask's own look-back when a mask with a larger requirement is present;
for a linear chain with windows `w1, w2, w3` the root total is
`w1 + w2 + w3 - 3`. -/
theorem c3_lookback_composition :
    (∀ (V : Type) (i : Nat) (ft : String) (win : Nat) (gb : String)
        (inputs : List (FTree V)) (mask : Option (FTree V)),
      getTotalBackwards (.node i ft win gb inputs mask) =
        match mask with
        | some m => max (getTotalBackwards m) (maxOr0 (gtbList inputs) + win - 1)
        | none => maxOr0 (gtbList inputs) + win - 1)
    ∧ (∀ (V : Type) (w1 w2 w3 i1 i2 i3 : Nat) (ft gb : String),
        getTotalBackwards (FTree.node i3 ft w3 gb
          [FTree.node i2 ft w2 gb [FTree.node i1 ft w1 gb ([] : List (FTree V)) none] none]
          none) = (w1 : Int) + w2 + w3 - 3)
    ∧ (∀ (V : Type) (i : Nat) (ft : String) (win : Nat) (gb : String)
        (inputs : List (FTree V)) (m : FTree V),
        maxOr0 (gtbList inputs) + win - 1 < getTotalBackwards m →
        getTotalBackwards (.node i ft win gb inputs (some m)) = getTotalBackwards m) := by
  refine ⟨?_, ?_, ?_⟩
  · intro V i ft win gb inputs mask
    cases mask <;> simp [getTotalBackwards]
  · intro V w1 w2 w3 i1 i2 i3 ft gb
    simp [getTotalBackwards, gtbList, maxOr0]
    omega
  · intro V i ft win gb inputs m h
    simp only [getTotalBackwards]
    exact max_eq_left h.le

/-- C3 witness: a `3 → 5 → 7` chain needs `12` extra periods; a mask
needing `49` widens a small node to `49`. -/
theorem c3_witness :
    getTotalBackwards (FTree.node 2 "SMA" 7 "asset"
        [FTree.node 1 "SMA" 5 "asset" [FTree.node 0 "SMA" 3 "asset" ([] : List (FTree Unit)) none]
          none] none) = 12
    ∧ getTotalBackwards (FTree.node 5 "Masked" 2 "date" ([] : List (FTree Unit))
        (some (FTree.node 6 "BigMask" 50 "date" [] none))) = 49 := by
  constructor
  · have h := c3_lookback_composition.2.1 Unit 3 5 7 0 1 2 "SMA" "asset"
    rw [h]
    decide
  · have h := c3_lookback_composition.2.2 Unit 5 "Masked" 2 "date" []
      (FTree.node 6 "BigMask" 50 "date" [] none) (by decide)
    rw [h]
    decide

/-! ## C5 — rank semantics -/

/-- C5: ranking preserves missing positions (whatever the direction), and
on the row `[3, 1, missing, 2]` ascending rank is `[3, 1, missing, 2]`
while descending rank is `[1, 3, missing, 2]`. -/
theorem c5_rank_semantics :
    (∀ (ascending : Bool) (row : List Val) (j : Nat),
        row.getD j none = none → (rankRow ascending row).getD j none = none)
    ∧ rankFactorCompute true [[some 3, some 1, none, some 2]] = [[some 3, some 1, none, some 2]]
    ∧ rankFactorCompute false [[some 3, some 1, none, some 2]]
        = [[some 1, some 3, none, some 2]] := by
  refine ⟨?_, ?_, ?_⟩
  · intro asc row j h
    by_cases hj : j < row.length
    · have hcell : row[j] = none := by
        rw [List.getD_eq_getElem _ _ hj] at h
        exact h
      simp only [rankRow, List.getD_eq_getElem?_getD, List.getElem?_map,
        List.getElem?_range hj]
      simp [List.getElem?_eq_getElem hj, hcell]
    · rw [List.getD_eq_getElem?_getD, List.getElem?_eq_none]
      · rfl
      · simp only [rankRow, List.length_map, List.length_range]
        omega
  · norm_num [rankFactorCompute, rankRow, argsortBy, insertPairBy, ascKeyLe, List.enum,
      List.enumFrom, List.foldl, List.getD, List.range_succ, List.map]
  · norm_num [rankFactorCompute, rankRow, argsortBy, insertPairBy, descKeyLe, List.enum,
      List.enumFrom, List.foldl, List.getD, List.range_succ, List.map]

/-- C5 witness: a missing cell keeps its missing rank. -/
theorem c5_witness : (rankRow true [some 3, none]).getD 1 none = none :=
  c5_rank_semantics.1 true [some 3, none] 1 rfl

/-! ## C4 — quantile bucketing -/

/-- Breakpoints of the row `[1, NaN]` with `bins = 2`: the NaN at
`x[q_next]` poisons the first two breakpoints (IEEE `NaN * 0 = NaN`). -/
theorem qbk_single_active : quantileBreakpoints 2 [some 1, none] = [none, none, some 1] := by
  simp only [quantileBreakpoints]
  norm_num [sortNanLast, qsort, qinsert, List.count_cons, List.range_succ]
  norm_num [List.filterMap_cons, List.filterMap_nil, qinsert, qtrunc, Int.fract, setLastTo]
  norm_num [zipW3, tget, List.getD, vadd, vsub, vmul]

/-- No cell matches an interval with a NaN endpoint. -/
theorem qlabel_nan_breakpoints (v : Val) : quantileLabel [none, none, some 1] v = none := by
  cases v <;> simp [quantileLabel, List.enum, List.enumFrom, vgt, vle]

/-- C4 (counterexample): the claim maps every row with exactly one active
value to bucket `0`.  The code only returns `0` when the whole panel has
one *column*; a `[1, NaN]` row in a two-column panel comes out
all-missing instead. -/
theorem c4_single_active_counterexample :
    quantileFactorCompute 2 [[some 1, none]] = [[none, none]]
    ∧ ([[none, none]] : List (List Val)) ≠ [[some 0, none]] := by
  constructor
  · have h : quantileRow 2 [some 1, none] = [none, none] := by
      simp [quantileRow, qbk_single_active, qlabel_nan_breakpoints]
    simp [quantileFactorCompute, h]
  · simp

/-- Bucket assignment against three numeric breakpoints: the later tile
wins, `none` when no interval matches. -/
theorem qlabel_three (x y z w : ℚ) : quantileLabel [some x, some y, some z] (some w) =
    if y < w ∧ w ≤ z then some 2 else if x < w ∧ w ≤ y then some 1 else none := by
  simp only [quantileLabel, List.zip, List.drop, List.zipWith, List.enum, List.enumFrom,
    List.foldl, vgt, vle]
  norm_num

/-- Breakpoints of four distinct sorted active values with `bins = 2`:
`[a - 1, midpoint of b and c, d]`. -/
theorem qbk_four_distinct (a b c d : ℚ) (h1 : a < b) (h2 : b < c) (h3 : c < d) :
    quantileBreakpoints 2 [some a, some b, some c, some d] =
      [some (a - 1), some (b + (c - b) * (1 / 2)), some d] := by
  simp only [quantileBreakpoints]
  norm_num [sortNanLast, qsort, qinsert, List.count_cons, List.range_succ,
    h1.not_le, h2.not_le, h3.not_le]
  norm_num [List.filterMap_cons, List.filterMap_nil, qinsert, qtrunc, Int.fract, setLastTo,
    h1.not_le, h2.not_le, h3.not_le]
  norm_num [zipW3, tget, List.getD, vadd, vsub, vmul,
    (show Int.toNat 2 = 2 by decide), (show Int.toNat 3 = 3 by decide),
    List.getElem_cons_succ, List.getElem_cons_zero]

/-- C4 (amended): for a row of 4 distinct active values with `bins = 2`
the lower two values land in bucket `1` and the upper two in bucket `2`;
and a *single-column* panel (the only case the code maps to bucket `0`)
returns `0` everywhere. -/
theorem c4_quantile_bucketing (a b c d : ℚ) (h1 : a < b) (h2 : b < c) (h3 : c < d) :
    quantileFactorCompute 2 [[some a, some b, some c, some d]]
      = [[some 1, some 1, some 2, some 2]]
    ∧ (∀ (bins : Nat) (v : ℚ), quantileFactorCompute bins [[some v]] = [[some 0]]) := by
  constructor
  · have hbk := qbk_four_distinct a b c d h1 h2 h3
    have hrow : quantileRow 2 [some a, some b, some c, some d]
        = [some 1, some 1, some 2, some 2] := by
      simp only [quantileRow, hbk, List.map_cons, List.map_nil, qlabel_three]
      rw [if_neg (by rintro ⟨hh, -⟩; linarith), if_pos ⟨by linarith, by linarith⟩,
          if_neg (by rintro ⟨hh, -⟩; linarith), if_pos ⟨by linarith, by linarith⟩,
          if_pos ⟨by linarith, by linarith⟩,
          if_pos ⟨by linarith, by linarith⟩]
    simp [quantileFactorCompute, hrow]
  · intro bins v
    rfl

/-- C4 witness: the row `[1, 2, 3, 4]` with `bins = 2` buckets as
`[1, 1, 2, 2]`. -/
theorem c4_witness :
    quantileFactorCompute 2 [[some 1, some 2, some 3, some 4]]
      = [[some 1, some 1, some 2, some 2]] :=
  (c4_quantile_bucketing 1 2 3 4 (by norm_num) (by norm_num) (by norm_num)).1

/-! ## C8 — input reformatting pipeline and mask framing -/

/-- C8: an input is regrouped, then masked, then (for `win > 1`) wrapped
in a `Rolling` view, in exactly that order; the mask applies to a node's
*inputs* only (its own output is the raw `compute` value); and an
everywhere-false mask turns the input into an all-missing panel, for
`win = 1` and `win > 1` alike. -/
theorem c8_input_reformatting :
    (∀ (V : Type) (env : Env V) (selfGb : String) (selfWin : Nat) (upGb upName : String)
        (upOut : V) (maskGb maskName : String) (mo : V),
      formatInput env selfGb selfWin upGb upName upOut maskGb maskName (some mo) =
        (if 1 < selfWin then
          env.rollingF (env.maskedFillNotF (regroupByOther env selfGb upGb upName upOut)
            (regroupByOther env selfGb maskGb maskName mo)) selfWin
        else
          env.maskedFillNotF (regroupByOther env selfGb upGb upName upOut)
            (regroupByOther env selfGb maskGb maskName mo)))
    ∧ (∀ (V : Type) (env : Env V) (i : Nat) (ft : String) (win : Nat) (gb : String)
        (inputs : List (FTree V)) (m : FTree V),
        denote env (.node i ft win gb inputs (some m)) =
          env.applyF ft (denoteInputs env gb win (maskGroupby (some m)) (maskFtype (some m))
            (denoteMask env (some m)) inputs))
    ∧ (∀ (ap : String → List TVal → TVal) (rv : TVal → String → String → TVal)
        (gb : TVal → String → TVal) (f : Nat → Nat → Val) (sgb nm mnm : String),
        formatInput (mkTensorEnv ap rv gb) sgb 1 sgb nm (.t2 f) sgb mnm
          (some (.tb fun _ _ => false)) = .t2 fun _ _ => none)
    ∧ (∀ (ap : String → List TVal → TVal) (rv : TVal → String → String → TVal)
        (gb : TVal → String → TVal) (f : Nat → Nat → Val) (sgb nm mnm : String) (w : Nat),
        1 < w →
        formatInput (mkTensorEnv ap rv gb) sgb w sgb nm (.t2 f) sgb mnm
          (some (.tb fun _ _ => false)) = .t3 fun _ _ _ => none) := by
  refine ⟨fun V env selfGb selfWin upGb upName upOut maskGb maskName mo => rfl,
    fun V env i ft win gb inputs m => by simp [denote], ?_, ?_⟩
  · intro ap rv gb f sgb nm mnm
    simp [formatInput, mkTensorEnv, regroupByOther, maskedFillNotTV]
  · intro ap rv gb f sgb nm mnm w hw
    simp [formatInput, mkTensorEnv, regroupByOther, maskedFillNotTV, rollingTV, hw]

/-! ## C1 / C2 — the graph execution protocol

The plan: `callsC` / `callsP` describe the call footprint of one
`compute_` / `pre_compute_` traversal.  Both footprints satisfy
`CallsSpecSub`, whose reachability characterization makes the two
traversal orders agree (`pre_compute_` recurses inputs-then-mask,
`compute_` mask-then-inputs).  The pre-pass lemma shows `pre_compute_`
loads `refs` with exactly the `callsP` counts; the compute-pass lemma
consumes exactly the `callsC` counts, evaluating every opened node once
and maintaining the cache discipline.  Chaining them settles C1 and the
well-formed half of C2. -/

/-- The start of a reach path avoids `A`. -/
theorem reachA_start_not_mem {V : Type} {D : Nat → FTree V} {A : List Nat} {i x : Nat}
    (h : ReachA D A i x) : i ∉ A := by
  induction h with
  | refl hi => exact hi
  | tail j k hr hk hkA ih => exact ih

/-- The end of a reach path avoids `A`. -/
theorem reachA_end_not_mem {V : Type} {D : Nat → FTree V} {A : List Nat} {i x : Nat}
    (h : ReachA D A i x) : x ∉ A := by
  cases h with
  | refl hi => exact hi
  | tail j k hr hk hkA => exact hkA

/-- A path avoiding a larger set avoids a smaller one. -/
theorem reachA_anti {V : Type} {D : Nat → FTree V} {A A' : List Nat} {i x : Nat}
    (hAA : ∀ k, k ∈ A → k ∈ A') (h : ReachA D A' i x) : ReachA D A i x := by
  induction h with
  | refl hi => exact .refl (fun hc => hi (hAA i hc))
  | tail j k hr hk hkA ih => exact .tail j k ih hk (fun hc => hkA (hAA k hc))

/-- Reach paths compose. -/
theorem reachA_trans {V : Type} {D : Nat → FTree V} {A : List Nat} {i j x : Nat}
    (h1 : ReachA D A i j) (h2 : ReachA D A j x) : ReachA D A i x := by
  induction h2 with
  | refl hj => exact h1
  | tail k l hr hk hkA ih => exact .tail k l ih hk hkA

/-- A single successor edge is a reach path. -/
theorem reachA_single {V : Type} {D : Nat → FTree V} {A : List Nat} {i k : Nat}
    (hi : i ∉ A) (hk : k ∈ succIds (D i)) (hkA : k ∉ A) : ReachA D A i k :=
  .tail i k (.refl hi) hk hkA

/-- Unfolding `Resolves` at a node. -/
theorem resolves_node {V : Type} {D : Nat → FTree V} {i : Nat} {ft : String} {w : Nat}
    {g : String} {inputs : List (FTree V)} {mask : Option (FTree V)}
    (h : Resolves D (.node i ft w g inputs mask)) :
    D i = .node i ft w g inputs mask ∧ ResolvesList D inputs ∧ ResolvesMask D mask := by
  simpa [Resolves] using h

/-- Members of a resolving input list resolve. -/
theorem resolvesList_mem {V : Type} {D : Nat → FTree V} {l : List (FTree V)} {u : FTree V}
    (h : ResolvesList D l) (hu : u ∈ l) : Resolves D u := by
  induction l with
  | nil => cases hu
  | cons t ts ih =>
    rw [ResolvesList] at h
    rcases List.mem_cons.mp hu with h1 | h1
    · exact h1 ▸ h.1
    · exact ih h.2 h1

/-- A factor input is smaller than its consumer. -/
theorem sizeOf_input_lt {V : Type} {i : Nat} {ft : String} {w : Nat} {g : String}
    {inputs : List (FTree V)} {mask : Option (FTree V)} {u : FTree V} (hu : u ∈ inputs) :
    sizeOf u < sizeOf (FTree.node i ft w g inputs mask) := by
  have := List.sizeOf_lt_of_mem hu
  simp [FTree.node.sizeOf_spec]
  omega

/-- A mask is smaller than its node. -/
theorem sizeOf_mask_lt {V : Type} {i : Nat} {ft : String} {w : Nat} {g : String}
    {inputs : List (FTree V)} {m : FTree V} :
    sizeOf m < sizeOf (FTree.node i ft w g inputs (some m)) := by
  simp [FTree.node.sizeOf_spec]
  omega

/-- One successor step preserves consistency and strictly shrinks the
resolved subtree. -/
theorem goodAt_succ {V : Type} {D : Nat → FTree V} {j k : Nat}
    (hj : GoodAt D j) (hk : k ∈ succIds (D j)) :
    GoodAt D k ∧ sizeOf (D k) < sizeOf (D j) := by
  obtain ⟨hid, hres⟩ := hj
  cases hDj : D j with
  | const v => rw [hDj] at hid; cases hid
  | node i ft w g inputs mask =>
    rw [hDj] at hid hres hk
    obtain ⟨hDi, hlist, hmask⟩ := resolves_node hres
    rw [succIds, List.mem_append] at hk
    rcases hk with hk | hk
    · cases mask with
      | none => simp [maskIds] at hk
      | some m =>
        simp only [maskIds] at hk
        cases hm : m.idOf with
        | none => rw [hm] at hk; cases hk
        | some km =>
          rw [hm, Option.toList_some, List.mem_singleton] at hk
          subst hk
          cases m with
          | const v => cases hm
          | node mi mft mw mg mins mmask =>
            rw [FTree.idOf] at hm
            injection hm with hm
            subst hm
            rw [ResolvesMask] at hmask
            have hDk := (resolves_node hmask).1
            refine ⟨⟨by rw [hDk, FTree.idOf], by rw [hDk]; exact hmask⟩, ?_⟩
            rw [hDk]
            exact sizeOf_mask_lt
    · obtain ⟨u, hu, hid2⟩ := List.mem_filterMap.mp hk
      cases u with
      | const v => cases hid2
      | node ui uft uw ug uins umask =>
        rw [FTree.idOf] at hid2
        injection hid2 with hid2
        subst hid2
        have hresu := resolvesList_mem hlist hu
        have hDk := (resolves_node hresu).1
        refine ⟨⟨by rw [hDk, FTree.idOf], by rw [hDk]; exact hresu⟩, ?_⟩
        rw [hDk]
        exact sizeOf_input_lt hu

/-- Along a reach path, consistency persists and the resolved subtree
never grows. -/
theorem reachA_size {V : Type} {D : Nat → FTree V} {A : List Nat} {i x : Nat}
    (h : ReachA D A i x) (hi : GoodAt D i) :
    GoodAt D x ∧ sizeOf (D x) ≤ sizeOf (D i) := by
  induction h with
  | refl hj => exact ⟨hi, le_refl _⟩
  | tail j k hr hk hkA ih =>
    obtain ⟨hgj, hsz⟩ := ih
    obtain ⟨hgk, hlt⟩ := goodAt_succ hgj hk
    exact ⟨hgk, (le_of_lt hlt).trans hsz⟩

/-- The empty phase: no roots, nothing opened, no calls. -/
theorem callsSpecSub_nil {V : Type} {D : Nat → FTree V} {A : List Nat} :
    CallsSpecSub D [] A (fun _ => 0) [] := by
  refine ⟨List.nodup_nil, ?_, ?_, ?_, ?_, ?_, ?_⟩ <;> simp

/-- The already-visited phase: a repeat visit of `i ∈ A` issues exactly
the one call on `i` and opens nothing. -/
theorem callsSpecSub_hit {V : Type} {D : Nat → FTree V} {A : List Nat} {i : Nat}
    (hi : i ∈ A) :
    CallsSpecSub D [i] A (fun k => if k = i then 1 else 0) [] := by
  refine ⟨List.nodup_nil, by simp, by simp, by simp, by simp, ?_, by simpa using hi⟩
  intro k
  simp [List.count_singleton', eq_comm]

/-- Two phases in sequence combine: the second starts where the first
left off. -/
theorem callsSpecSub_append {V : Type} {D : Nat → FTree V} {S1 S2 A : List Nat}
    {c1 c2 : Nat → Nat} {nw1 nw2 : List Nat}
    (h1 : CallsSpecSub D S1 A c1 nw1)
    (h2 : CallsSpecSub D S2 (nw1 ++ A) c2 nw2) :
    CallsSpecSub D (S1 ++ S2) A (fun k => c1 k + c2 k) (nw2 ++ nw1) := by
  obtain ⟨nd1, fresh1, good1, reach1, closed1, count1, root1⟩ := h1
  obtain ⟨nd2, fresh2, good2, reach2, closed2, count2, root2⟩ := h2
  refine ⟨?_, ?_, ?_, ?_, ?_, ?_, ?_⟩
  · refine List.Nodup.append nd2 nd1 ?_
    intro x hx2 hx1
    exact fresh2 x hx2 (List.mem_append.mpr (Or.inl hx1))
  · intro x hx
    rcases List.mem_append.mp hx with hx | hx
    · exact fun hc => fresh2 x hx (List.mem_append.mpr (Or.inr hc))
    · exact fresh1 x hx
  · intro x hx
    rcases List.mem_append.mp hx with hx | hx
    · exact good2 x hx
    · exact good1 x hx
  · intro x hx
    rcases List.mem_append.mp hx with hx | hx
    · obtain ⟨i, hi, hr⟩ := reach2 x hx
      exact ⟨i, List.mem_append.mpr (Or.inr hi),
        reachA_anti (fun k hk => List.mem_append.mpr (Or.inr hk)) hr⟩
    · obtain ⟨i, hi, hr⟩ := reach1 x hx
      exact ⟨i, List.mem_append.mpr (Or.inl hi), hr⟩
  · intro j hj k hk
    rcases List.mem_append.mp hj with hj | hj
    · have := closed2 j hj k hk
      simp only [List.mem_append] at this ⊢
      tauto
    · have := closed1 j hj k hk
      simp only [List.mem_append] at this ⊢
      tauto
  · intro k
    show c1 k + c2 k = _
    rw [count1 k, count2 k]
    simp only [List.count_append, List.map_append, List.sum_append]
    omega
  · intro i hi
    rcases List.mem_append.mp hi with hi | hi
    · have := root1 i hi
      simp only [List.mem_append] at this ⊢
      tauto
    · have := root2 i hi
      simp only [List.mem_append] at this ⊢
      tauto

/-- Opening a fresh root `i`: one call on `i` itself plus the phase over
its successors, which was run with `i` already marked visited. -/
theorem callsSpecSub_open {V : Type} {D : Nat → FTree V} {S A : List Nat} {i : Nat}
    {c : Nat → Nat} {nw : List Nat}
    (hiA : i ∉ A) (hgood : GoodAt D i)
    (hS : List.Perm S (succIds (D i)))
    (h : CallsSpecSub D S (i :: A) c nw) :
    CallsSpecSub D [i] A (fun k => (if k = i then 1 else 0) + c k) (nw ++ [i]) := by
  obtain ⟨nd, fresh, good, reach, closed, count, root⟩ := h
  have hmemS : ∀ k, k ∈ S ↔ k ∈ succIds (D i) := fun k => hS.mem_iff
  refine ⟨?_, ?_, ?_, ?_, ?_, ?_, ?_⟩
  · refine List.Nodup.append nd (List.nodup_singleton i) ?_
    intro x hx hxi
    rw [List.mem_singleton] at hxi
    exact fresh x hx (hxi ▸ List.mem_cons_self i A)
  · intro x hx
    rcases List.mem_append.mp hx with hx | hx
    · exact fun hc => fresh x hx (List.mem_cons_of_mem i hc)
    · rw [List.mem_singleton] at hx
      exact hx ▸ hiA
  · intro x hx
    rcases List.mem_append.mp hx with hx | hx
    · exact good x hx
    · rw [List.mem_singleton] at hx
      exact hx ▸ hgood
  · intro x hx
    refine ⟨i, List.mem_singleton_self i, ?_⟩
    rcases List.mem_append.mp hx with hx | hx
    · obtain ⟨s, hs, hr⟩ := reach x hx
      have hsnotA : s ∉ i :: A := reachA_start_not_mem hr
      have hstep : ReachA D A i s := reachA_single hiA ((hmemS s).mp hs)
        (fun hc => hsnotA (List.mem_cons_of_mem i hc))
      exact reachA_trans hstep (reachA_anti (fun k hk => List.mem_cons_of_mem i hk) hr)
    · rw [List.mem_singleton] at hx
      subst hx
      exact ReachA.refl hiA
  · intro j hj k hk
    rcases List.mem_append.mp hj with hj | hj
    · have := closed j hj k hk
      simp only [List.mem_append, List.mem_cons, List.mem_singleton] at this ⊢
      tauto
    · rw [List.mem_singleton] at hj
      subst hj
      have := root k ((hmemS k).mpr hk)
      simp only [List.mem_append, List.mem_cons, List.mem_singleton] at this ⊢
      tauto
  · intro k
    show (if k = i then 1 else 0) + c k = _
    rw [count k]
    have hc : S.count k = (succIds (D i)).count k := hS.count_eq k
    simp only [List.map_append, List.sum_append, List.map_cons, List.map_nil,
      List.sum_cons, List.sum_nil, List.count_singleton', eq_comm, hc]
    omega
  · intro j hj
    rw [List.mem_singleton] at hj
    subst hj
    simp

/-- Everything reachable from a phase's roots ends up visited. -/
theorem callsSpecSub_complete {V : Type} {D : Nat → FTree V} {S A : List Nat}
    {c : Nat → Nat} {nw : List Nat} (h : CallsSpecSub D S A c nw) :
    ∀ i ∈ S, ∀ x, ReachA D A i x → x ∈ nw ++ A := by
  obtain ⟨nd, fresh, good, reach, closed, count, root⟩ := h
  intro i hi x hr
  induction hr with
  | refl hii => exact root i hi
  | tail j k hrj hk hkA ih =>
    rcases List.mem_append.mp ih with hj | hj
    · exact closed j hj k hk
    · exact absurd hj (reachA_end_not_mem hrj)

/-- Every opened identity receives at least one call. -/
theorem callsSpecSub_pos {V : Type} {D : Nat → FTree V} {S A : List Nat}
    {c : Nat → Nat} {nw : List Nat} (h : CallsSpecSub D S A c nw) :
    ∀ x ∈ nw, 0 < c x := by
  intro x hx
  obtain ⟨i, hi, hr⟩ := h.2.2.2.1 x hx
  rw [h.2.2.2.2.2.1 x]
  cases hr with
  | refl hii =>
    have : 0 < S.count x := List.count_pos_iff.mpr hi
    omega
  | tail j k hrj hk hkA =>
    have hjnw : j ∈ nw := by
      have hmem := callsSpecSub_complete h i hi j hrj
      rcases List.mem_append.mp hmem with hj | hj
      · exact hj
      · exact absurd hj (reachA_end_not_mem hrj)
    have h1 : 0 < (succIds (D j)).count x := List.count_pos_iff.mpr hk
    have h2 : (succIds (D j)).count x ≤ (nw.map fun j => (succIds (D j)).count x).sum :=
      List.single_le_sum (fun y _ => Nat.zero_le y) _ (List.mem_map_of_mem _ hjnw)
    omega

/-- Calls land only on visited identities. -/
theorem callsSpecSub_support {V : Type} {D : Nat → FTree V} {S A : List Nat}
    {c : Nat → Nat} {nw : List Nat} (h : CallsSpecSub D S A c nw) :
    ∀ x, 0 < c x → x ∈ nw ++ A := by
  obtain ⟨nd, fresh, good, reach, closed, count, root⟩ := h
  intro x hx
  by_contra hnot
  rw [count x] at hx
  have h1 : S.count x = 0 := by
    by_contra h0
    exact hnot (root x (List.count_pos_iff.mp (Nat.pos_of_ne_zero h0)))
  have h2 : (nw.map fun j => (succIds (D j)).count x).sum = 0 := by
    apply List.sum_eq_zero
    intro v hv
    obtain ⟨j, hj, rfl⟩ := List.mem_map.mp hv
    by_contra h0
    exact hnot (closed j hj x (List.count_pos_iff.mp (Nat.pos_of_ne_zero h0)))
  omega

/-- A phase below an identity `x` never calls or opens `x`: calls go to
the roots or to successors of opened nodes, all strictly smaller than
`D x`. -/
theorem callsSpecSub_far {V : Type} {D : Nat → FTree V} {S A : List Nat}
    {c : Nat → Nat} {nw : List Nat} (h : CallsSpecSub D S A c nw)
    (hgoodS : ∀ s ∈ S, GoodAt D s) (x : Nat)
    (hbig : ∀ s ∈ S, sizeOf (D s) < sizeOf (D x)) :
    c x = 0 ∧ x ∉ nw := by
  obtain ⟨nd, fresh, good, reach, closed, count, root⟩ := h
  have hxnw : x ∉ nw := by
    intro hx
    obtain ⟨s, hs, hr⟩ := reach x hx
    have := (reachA_size hr (hgoodS s hs)).2
    exact absurd (lt_of_le_of_lt this (hbig s hs)) (lt_irrefl _)
  refine ⟨?_, hxnw⟩
  rw [count x]
  have h1 : S.count x = 0 := by
    apply List.count_eq_zero.mpr
    intro hx
    exact absurd (hbig x hx) (lt_irrefl _)
  have h2 : (nw.map fun j => (succIds (D j)).count x).sum = 0 := by
    apply List.sum_eq_zero
    intro v hv
    obtain ⟨j, hj, rfl⟩ := List.mem_map.mp hv
    apply List.count_eq_zero.mpr
    intro hx
    obtain ⟨s, hs, hr⟩ := reach j hj
    have hszj := (reachA_size hr (hgoodS s hs)).2
    have hgj := (reachA_size hr (hgoodS s hs)).1
    have := (goodAt_succ hgj hx).2
    have := lt_of_lt_of_le this hszj
    exact absurd (lt_trans this (hbig s hs)) (lt_irrefl _)
  omega

/-- The mask field is smaller than its node. -/
theorem sizeOf_maskfield_lt {V : Type} {i : Nat} {ft : String} {w : Nat} {g : String}
    {inputs : List (FTree V)} {mask : Option (FTree V)} :
    sizeOf mask < sizeOf (FTree.node i ft w g inputs mask) := by
  simp [FTree.node.sizeOf_spec]

/-- The inputs field is smaller than its node. -/
theorem sizeOf_inputsfield_lt {V : Type} {i : Nat} {ft : String} {w : Nat} {g : String}
    {inputs : List (FTree V)} {mask : Option (FTree V)} :
    sizeOf inputs < sizeOf (FTree.node i ft w g inputs mask) := by
  simp [FTree.node.sizeOf_spec]
  omega

/-- Transport a phase spec along pointwise-equal data. -/
theorem callsSpecSub_congr {V : Type} {D : Nat → FTree V} {S A : List Nat}
    {c c' : Nat → Nat} {nw nw' : List Nat}
    (hc : ∀ k, c k = c' k) (hnw : nw = nw')
    (h : CallsSpecSub D S A c nw) : CallsSpecSub D S A c' nw' := by
  have : c = c' := funext hc
  subst this
  subst hnw
  exact h

/-- Root lists of an input list decompose cons-wise. -/
theorem filterMap_idOf_cons {V : Type} (t : FTree V) (ts : List (FTree V)) :
    (t :: ts).filterMap FTree.idOf = t.idOf.toList ++ ts.filterMap FTree.idOf := by
  cases t <;> simp [FTree.idOf]

/-- The `compute_`-order footprint satisfies the phase spec, at every
node, mask and input list of a consistently labelled tree (joint strong
induction on size). -/
theorem callsC_spec_bundle {V : Type} (D : Nat → FTree V) : ∀ n : Nat,
    (∀ t : FTree V, sizeOf t ≤ n → Resolves D t → ∀ A,
      CallsSpecSub D t.idOf.toList A (callsC t A).1 (callsC t A).2)
    ∧ (∀ mo : Option (FTree V), sizeOf mo ≤ n → ResolvesMask D mo → ∀ A,
      CallsSpecSub D (maskIds mo) A (callsCMask mo A).1 (callsCMask mo A).2)
    ∧ (∀ l : List (FTree V), sizeOf l ≤ n → ResolvesList D l → ∀ A,
      CallsSpecSub D (l.filterMap FTree.idOf) A (callsCList l A).1 (callsCList l A).2) := by
  intro n
  induction n using Nat.strong_induction_on with
  | _ n ih =>
    refine ⟨?_, ?_, ?_⟩
    · intro t hsize hres A
      cases t with
      | const v =>
        have hunf : callsC (FTree.const v) A = (fun _ => 0, ([] : List Nat)) := by
          simp [callsC]
        rw [hunf]
        exact callsSpecSub_nil
      | node i ft w g inputs mask =>
        obtain ⟨hDi, hlist, hmask⟩ := resolves_node hres
        by_cases hi : i ∈ A
        · have hunf : callsC (FTree.node i ft w g inputs mask) A
              = (fun k => if k = i then 1 else 0, ([] : List Nat)) := by
            simp [callsC, hi]
          rw [hunf]
          exact callsSpecSub_hit hi
        · have hszm : sizeOf mask < n :=
            lt_of_lt_of_le sizeOf_maskfield_lt hsize
          have hszl : sizeOf inputs < n :=
            lt_of_lt_of_le sizeOf_inputsfield_lt hsize
          have specm := ((ih (sizeOf mask) hszm).2.1) mask (le_refl _) hmask (i :: A)
          have speci := ((ih (sizeOf inputs) hszl).2.2) inputs (le_refl _) hlist
            ((callsCMask mask (i :: A)).2 ++ i :: A)
          have comb := callsSpecSub_append specm speci
          have hgood : GoodAt D i := ⟨by rw [hDi]; rfl, by rw [hDi]; exact hres⟩
          have hperm : List.Perm (maskIds mask ++ inputs.filterMap FTree.idOf)
              (succIds (D i)) := by
            rw [hDi, succIds]
          have hop := callsSpecSub_open hi hgood hperm comb
          have hunf : callsC (FTree.node i ft w g inputs mask) A
              = (fun k => (if k = i then 1 else 0) + (callsCMask mask (i :: A)).1 k
                    + (callsCList inputs ((callsCMask mask (i :: A)).2 ++ i :: A)).1 k,
                 (callsCList inputs ((callsCMask mask (i :: A)).2 ++ i :: A)).2
                    ++ (callsCMask mask (i :: A)).2 ++ [i]) := by
            simp [callsC, hi]
          rw [hunf]
          refine callsSpecSub_congr (fun k => ?_) (by simp) hop
          show (if k = i then 1 else 0) + ((callsCMask mask (i :: A)).1 k
                + (callsCList inputs ((callsCMask mask (i :: A)).2 ++ i :: A)).1 k)
              = (if k = i then 1 else 0) + (callsCMask mask (i :: A)).1 k
                + (callsCList inputs ((callsCMask mask (i :: A)).2 ++ i :: A)).1 k
          omega
    · intro mo hsize hres A
      cases mo with
      | none =>
        have hunf : callsCMask (none : Option (FTree V)) A = (fun _ => 0, ([] : List Nat)) := by
          simp [callsCMask]
        rw [hunf]
        exact callsSpecSub_nil
      | some m =>
        have hszm : sizeOf m < n := by
          have h1 : sizeOf m < sizeOf (some m) := by
            rw [Option.some.sizeOf_spec]
            omega
          omega
        have := ((ih (sizeOf m) hszm).1) m (le_refl _) hres A
        have hunf : callsCMask (some m) A = callsC m A := by
          simp [callsCMask]
        rw [hunf]
        exact this
    · intro l hsize hres A
      cases l with
      | nil =>
        have hunf : callsCList ([] : List (FTree V)) A = (fun _ => 0, ([] : List Nat)) := by
          simp [callsCList]
        rw [hunf]
        exact callsSpecSub_nil
      | cons t ts =>
        rw [ResolvesList] at hres
        have hszt : sizeOf t < n := by
          have : sizeOf t < sizeOf (t :: ts) := by
            rw [List.cons.sizeOf_spec]
            omega
          omega
        have hszts : sizeOf ts < n := by
          have : sizeOf ts < sizeOf (t :: ts) := by
            rw [List.cons.sizeOf_spec]
            omega
          omega
        have spect := ((ih (sizeOf t) hszt).1) t (le_refl _) hres.1 A
        have spects := ((ih (sizeOf ts) hszts).2.2) ts (le_refl _) hres.2
          ((callsC t A).2 ++ A)
        have comb := callsSpecSub_append spect spects
        have hunf : callsCList (t :: ts) A
            = (fun k => (callsC t A).1 k
                  + (callsCList ts ((callsC t A).2 ++ A)).1 k,
               (callsCList ts ((callsC t A).2 ++ A)).2 ++ (callsC t A).2) := by
          simp [callsCList]
        rw [hunf, filterMap_idOf_cons]
        exact comb

/-- The `pre_compute_`-order footprint satisfies the same phase spec
(inputs before mask; the root's successor multiset is the same up to
permutation). -/
theorem callsP_spec_bundle {V : Type} (D : Nat → FTree V) : ∀ n : Nat,
    (∀ t : FTree V, sizeOf t ≤ n → Resolves D t → ∀ A,
      CallsSpecSub D t.idOf.toList A (callsP t A).1 (callsP t A).2)
    ∧ (∀ mo : Option (FTree V), sizeOf mo ≤ n → ResolvesMask D mo → ∀ A,
      CallsSpecSub D (maskIds mo) A (callsPMask mo A).1 (callsPMask mo A).2)
    ∧ (∀ l : List (FTree V), sizeOf l ≤ n → ResolvesList D l → ∀ A,
      CallsSpecSub D (l.filterMap FTree.idOf) A (callsPList l A).1 (callsPList l A).2) := by
  intro n
  induction n using Nat.strong_induction_on with
  | _ n ih =>
    refine ⟨?_, ?_, ?_⟩
    · intro t hsize hres A
      cases t with
      | const v =>
        have hunf : callsP (FTree.const v) A = (fun _ => 0, ([] : List Nat)) := by
          simp [callsP]
        rw [hunf]
        exact callsSpecSub_nil
      | node i ft w g inputs mask =>
        obtain ⟨hDi, hlist, hmask⟩ := resolves_node hres
        by_cases hi : i ∈ A
        · have hunf : callsP (FTree.node i ft w g inputs mask) A
              = (fun k => if k = i then 1 else 0, ([] : List Nat)) := by
            simp [callsP, hi]
          rw [hunf]
          exact callsSpecSub_hit hi
        · have hszm : sizeOf mask < n :=
            lt_of_lt_of_le sizeOf_maskfield_lt hsize
          have hszl : sizeOf inputs < n :=
            lt_of_lt_of_le sizeOf_inputsfield_lt hsize
          have speci := ((ih (sizeOf inputs) hszl).2.2) inputs (le_refl _) hlist (i :: A)
          have specm := ((ih (sizeOf mask) hszm).2.1) mask (le_refl _) hmask
            ((callsPList inputs (i :: A)).2 ++ i :: A)
          have comb := callsSpecSub_append speci specm
          have hgood : GoodAt D i := ⟨by rw [hDi]; rfl, by rw [hDi]; exact hres⟩
          have hperm : List.Perm (inputs.filterMap FTree.idOf ++ maskIds mask)
              (succIds (D i)) := by
            rw [hDi, succIds]
            exact List.perm_append_comm
          have hop := callsSpecSub_open hi hgood hperm comb
          have hunf : callsP (FTree.node i ft w g inputs mask) A
              = (fun k => (if k = i then 1 else 0) + (callsPList inputs (i :: A)).1 k
                    + (callsPMask mask ((callsPList inputs (i :: A)).2 ++ i :: A)).1 k,
                 (callsPMask mask ((callsPList inputs (i :: A)).2 ++ i :: A)).2
                    ++ (callsPList inputs (i :: A)).2 ++ [i]) := by
            simp [callsP, hi]
          rw [hunf]
          refine callsSpecSub_congr (fun k => ?_) (by simp) hop
          show (if k = i then 1 else 0) + ((callsPList inputs (i :: A)).1 k
                + (callsPMask mask ((callsPList inputs (i :: A)).2 ++ i :: A)).1 k)
              = (if k = i then 1 else 0) + (callsPList inputs (i :: A)).1 k
                + (callsPMask mask ((callsPList inputs (i :: A)).2 ++ i :: A)).1 k
          omega
    · intro mo hsize hres A
      cases mo with
      | none =>
        have hunf : callsPMask (none : Option (FTree V)) A = (fun _ => 0, ([] : List Nat)) := by
          simp [callsPMask]
        rw [hunf]
        exact callsSpecSub_nil
      | some m =>
        have hszm : sizeOf m < n := by
          have h1 : sizeOf m < sizeOf (some m) := by
            rw [Option.some.sizeOf_spec]
            omega
          omega
        have := ((ih (sizeOf m) hszm).1) m (le_refl _) hres A
        have hunf : callsPMask (some m) A = callsP m A := by
          simp [callsPMask]
        rw [hunf]
        exact this
    · intro l hsize hres A
      cases l with
      | nil =>
        have hunf : callsPList ([] : List (FTree V)) A = (fun _ => 0, ([] : List Nat)) := by
          simp [callsPList]
        rw [hunf]
        exact callsSpecSub_nil
      | cons t ts =>
        rw [ResolvesList] at hres
        have hszt : sizeOf t < n := by
          have : sizeOf t < sizeOf (t :: ts) := by
            rw [List.cons.sizeOf_spec]
            omega
          omega
        have hszts : sizeOf ts < n := by
          have : sizeOf ts < sizeOf (t :: ts) := by
            rw [List.cons.sizeOf_spec]
            omega
          omega
        have spect := ((ih (sizeOf t) hszt).1) t (le_refl _) hres.1 A
        have spects := ((ih (sizeOf ts) hszts).2.2) ts (le_refl _) hres.2
          ((callsP t A).2 ++ A)
        have comb := callsSpecSub_append spect spects
        have hunf : callsPList (t :: ts) A
            = (fun k => (callsP t A).1 k
                  + (callsPList ts ((callsP t A).2 ++ A)).1 k,
               (callsPList ts ((callsP t A).2 ++ A)).2 ++ (callsP t A).2) := by
          simp [callsPList]
        rw [hunf, filterMap_idOf_cons]
        exact comb

/-- The `compute_`-order footprint of a consistent tree. -/
theorem callsC_spec {V : Type} {D : Nat → FTree V} {t : FTree V}
    (hres : Resolves D t) (A : List Nat) :
    CallsSpecSub D t.idOf.toList A (callsC t A).1 (callsC t A).2 :=
  (callsC_spec_bundle D (sizeOf t)).1 t (le_refl _) hres A

/-- The `compute_`-order footprint of a mask. -/
theorem callsCMask_spec {V : Type} {D : Nat → FTree V} {mo : Option (FTree V)}
    (hres : ResolvesMask D mo) (A : List Nat) :
    CallsSpecSub D (maskIds mo) A (callsCMask mo A).1 (callsCMask mo A).2 :=
  (callsC_spec_bundle D (sizeOf mo)).2.1 mo (le_refl _) hres A

/-- The `compute_`-order footprint of an input list. -/
theorem callsCList_spec {V : Type} {D : Nat → FTree V} {l : List (FTree V)}
    (hres : ResolvesList D l) (A : List Nat) :
    CallsSpecSub D (l.filterMap FTree.idOf) A (callsCList l A).1 (callsCList l A).2 :=
  (callsC_spec_bundle D (sizeOf l)).2.2 l (le_refl _) hres A

/-- The `pre_compute_`-order footprint of a consistent tree. -/
theorem callsP_spec {V : Type} {D : Nat → FTree V} {t : FTree V}
    (hres : Resolves D t) (A : List Nat) :
    CallsSpecSub D t.idOf.toList A (callsP t A).1 (callsP t A).2 :=
  (callsP_spec_bundle D (sizeOf t)).1 t (le_refl _) hres A

/-- The `pre_compute_`-order footprint of a mask. -/
theorem callsPMask_spec {V : Type} {D : Nat → FTree V} {mo : Option (FTree V)}
    (hres : ResolvesMask D mo) (A : List Nat) :
    CallsSpecSub D (maskIds mo) A (callsPMask mo A).1 (callsPMask mo A).2 :=
  (callsP_spec_bundle D (sizeOf mo)).2.1 mo (le_refl _) hres A

/-- The `pre_compute_`-order footprint of an input list. -/
theorem callsPList_spec {V : Type} {D : Nat → FTree V} {l : List (FTree V)}
    (hres : ResolvesList D l) (A : List Nat) :
    CallsSpecSub D (l.filterMap FTree.idOf) A (callsPList l A).1 (callsPList l A).2 :=
  (callsP_spec_bundle D (sizeOf l)).2.2 l (le_refl _) hres A

/-- Both traversal orders issue the same calls and visit the same
identities: `pre_compute_` (inputs first) loads exactly the demand
`compute_` (mask first) will consume. -/
theorem calls_bridge {V : Type} {D : Nat → FTree V} {t : FTree V}
    (hres : Resolves D t) (A : List Nat) :
    (∀ k, (callsP t A).1 k = (callsC t A).1 k)
    ∧ (∀ x, x ∈ (callsP t A).2 ↔ x ∈ (callsC t A).2) := by
  have hP := callsP_spec hres A
  have hC := callsC_spec hres A
  have hmem : ∀ x, x ∈ (callsP t A).2 ↔ x ∈ (callsC t A).2 := by
    intro x
    constructor
    · intro hx
      obtain ⟨i, hi, hr⟩ := hP.2.2.2.1 x hx
      have hxA : x ∉ A := hP.2.1 x hx
      have := callsSpecSub_complete hC i hi x hr
      rcases List.mem_append.mp this with h | h
      · exact h
      · exact absurd h hxA
    · intro hx
      obtain ⟨i, hi, hr⟩ := hC.2.2.2.1 x hx
      have hxA : x ∉ A := hC.2.1 x hx
      have := callsSpecSub_complete hP i hi x hr
      rcases List.mem_append.mp this with h | h
      · exact h
      · exact absurd h hxA
  have hperm : List.Perm (callsP t A).2 (callsC t A).2 :=
    (List.perm_ext_iff_of_nodup hP.1 hC.1).mpr hmem
  refine ⟨?_, hmem⟩
  intro k
  rw [hP.2.2.2.2.2.1 k, hC.2.2.2.2.2.1 k]
  have := (hperm.map (fun j => (succIds (D j)).count k)).sum_eq
  omega

/-- Issuing the calls of one phase moves the positive-`refs` support from
`A` to `nw ++ A`. -/
theorem support_update {V : Type} {D : Nat → FTree V} {S A : List Nat} {c : Nat → Nat}
    {nw : List Nat} (hspec : CallsSpecSub D S A c nw)
    {s s' : St V} (hrefs : ∀ k, s'.refs k = s.refs k + c k)
    (hall : ∀ k, 0 < s.refs k ↔ k ∈ A) :
    ∀ k, 0 < s'.refs k ↔ k ∈ nw ++ A := by
  intro k
  rw [hrefs k]
  constructor
  · intro h
    by_cases h0 : 0 < c k
    · exact callsSpecSub_support hspec k h0
    · have hpos : 0 < s.refs k := by omega
      exact List.mem_append.mpr (Or.inr ((hall k).mp hpos))
  · intro h
    rcases List.mem_append.mp h with h | h
    · have := callsSpecSub_pos hspec k h
      omega
    · have := (hall k).mpr h
      omega

/-- Unfolding `preCompute` at a node. -/
theorem preCompute_node {V : Type} (i : Nat) (ft : String) (w : Nat) (g : String)
    (inputs : List (FTree V)) (mask : Option (FTree V)) (s : St V) :
    preCompute (FTree.node i ft w g inputs mask) s =
      (let s2 : St V := ⟨fun k => if k = i then s.refs k + 1 else s.refs k,
                         fun k => if k = i then none else s.cache k,
                         s.evals, g :: s.regs⟩
       if 1 < s2.refs i then s2
       else
         match mask with
         | some m => preCompute m (preComputeList inputs s2)
         | none => preComputeList inputs s2) := by
  rw [preCompute]

/-- The `pre_compute_` pass adds exactly the `callsP` footprint to
`refs`, resets the cache of every called node, and leaves the evaluation
counters alone (joint strong induction on size; the hypothesis ties the
positive-`refs` support to the already-visited set). -/
theorem preCompute_spec_bundle {V : Type} (D : Nat → FTree V) : ∀ n : Nat,
    (∀ t : FTree V, sizeOf t ≤ n → Resolves D t → ∀ (A : List Nat) (s : St V),
      (∀ k, 0 < s.refs k ↔ k ∈ A) →
      (∀ k, (preCompute t s).refs k = s.refs k + (callsP t A).1 k)
      ∧ (∀ k, (preCompute t s).cache k =
          if 0 < (callsP t A).1 k then none else s.cache k)
      ∧ (preCompute t s).evals = s.evals)
    ∧ (∀ l : List (FTree V), sizeOf l ≤ n → ResolvesList D l → ∀ (A : List Nat) (s : St V),
      (∀ k, 0 < s.refs k ↔ k ∈ A) →
      (∀ k, (preComputeList l s).refs k = s.refs k + (callsPList l A).1 k)
      ∧ (∀ k, (preComputeList l s).cache k =
          if 0 < (callsPList l A).1 k then none else s.cache k)
      ∧ (preComputeList l s).evals = s.evals) := by
  intro n
  induction n using Nat.strong_induction_on with
  | _ n ih =>
    refine ⟨?_, ?_⟩
    · intro t hsize hres A s hall
      cases t with
      | const v =>
        refine ⟨fun k => by simp [preCompute, callsP],
          fun k => by simp [preCompute, callsP], by simp [preCompute]⟩
      | node i ft w g inputs mask =>
        obtain ⟨hDi, hlist, hmask⟩ := resolves_node hres
        rw [preCompute_node]
        by_cases hi : i ∈ A
        · have hpos : 0 < s.refs i := (hall i).mpr hi
          rw [if_pos (by simp; omega)]
          have hcalls : callsP (FTree.node i ft w g inputs mask) A
              = (fun k => if k = i then 1 else 0, ([] : List Nat)) := by
            simp [callsP, hi]
          rw [hcalls]
          refine ⟨?_, ?_, rfl⟩
          · intro k
            by_cases hk : k = i <;> simp [hk]
          · intro k
            by_cases hk : k = i <;> simp [hk]
        · have hz : s.refs i = 0 := by
            by_contra h0
            exact hi ((hall i).mp (Nat.pos_of_ne_zero h0))
          rw [if_neg (by simp [hz])]
          have hszm : sizeOf mask < n := lt_of_lt_of_le sizeOf_maskfield_lt hsize
          have hszl : sizeOf inputs < n := lt_of_lt_of_le sizeOf_inputsfield_lt hsize
          set s2 : St V := ⟨fun k => if k = i then s.refs k + 1 else s.refs k,
            fun k => if k = i then none else s.cache k, s.evals, g :: s.regs⟩ with hs2
          have hall2 : ∀ k, 0 < s2.refs k ↔ k ∈ i :: A := by
            intro k
            by_cases hk : k = i
            · subst hk
              simp [hs2, hz]
            · simp [hs2, hk, hall k]
          have hlistIH := ((ih (sizeOf inputs) hszl).2) inputs (le_refl _) hlist
            (i :: A) s2 hall2
          have hspeci := callsPList_spec (D := D) hlist (i :: A)
          have hall3 := support_update hspeci hlistIH.1 hall2
          cases mask with
          | none =>
            have hcalls : (callsP (FTree.node i ft w g inputs none) A).1
                = fun k => (if k = i then 1 else 0) + (callsPList inputs (i :: A)).1 k := by
              simp [callsP, hi, callsPMask]
            simp only [hcalls]
            refine ⟨?_, ?_, ?_⟩
            · intro k
              rw [hlistIH.1 k]
              by_cases hk : k = i <;> simp [hs2, hk]
              omega
            · intro k
              rw [hlistIH.2.1 k]
              by_cases hk : k = i
                <;> by_cases h1 : 0 < (callsPList inputs (i :: A)).1 k
                <;> simp [hs2, hk, h1]
            · rw [hlistIH.2.2]
          | some m =>
            rw [ResolvesMask] at hmask
            have hszm2 : sizeOf m < n := by
              have : sizeOf m < sizeOf (some m) := by
                rw [Option.some.sizeOf_spec]
                omega
              omega
            have hmaskIH := ((ih (sizeOf m) hszm2).1) m (le_refl _) hmask
              ((callsPList inputs (i :: A)).2 ++ i :: A) (preComputeList inputs s2) hall3
            have hcalls : (callsP (FTree.node i ft w g inputs (some m)) A).1
                = fun k => (if k = i then 1 else 0) + (callsPList inputs (i :: A)).1 k
                    + (callsP m ((callsPList inputs (i :: A)).2 ++ i :: A)).1 k := by
              simp [callsP, hi, callsPMask]
            simp only [hcalls]
            refine ⟨?_, ?_, ?_⟩
            · intro k
              rw [hmaskIH.1 k, hlistIH.1 k]
              by_cases hk : k = i <;> simp [hs2, hk] <;> omega
            · intro k
              rw [hmaskIH.2.1 k, hlistIH.2.1 k]
              by_cases hk : k = i
                <;> by_cases h1 : 0 < (callsP m ((callsPList inputs (i :: A)).2 ++ i :: A)).1 k
                <;> by_cases h2 : 0 < (callsPList inputs (i :: A)).1 k
                <;> simp [hs2, hk, h1, h2]
            · rw [hmaskIH.2.2, hlistIH.2.2]
    · intro l hsize hres A s hall
      cases l with
      | nil =>
        refine ⟨fun k => by simp [preComputeList, callsPList],
          fun k => by simp [preComputeList, callsPList], by simp [preComputeList]⟩
      | cons t ts =>
        rw [ResolvesList] at hres
        have hszt : sizeOf t < n := by
          have : sizeOf t < sizeOf (t :: ts) := by
            rw [List.cons.sizeOf_spec]
            omega
          omega
        have hszts : sizeOf ts < n := by
          have : sizeOf ts < sizeOf (t :: ts) := by
            rw [List.cons.sizeOf_spec]
            omega
          omega
        have htIH := ((ih (sizeOf t) hszt).1) t (le_refl _) hres.1 A s hall
        have hspect := callsP_spec (D := D) hres.1 A
        have hall2 := support_update hspect htIH.1 hall
        have htsIH := ((ih (sizeOf ts) hszts).2) ts (le_refl _) hres.2
          ((callsP t A).2 ++ A) (preCompute t s) hall2
        have hunfL : preComputeList (t :: ts) s = preComputeList ts (preCompute t s) := by
          rw [preComputeList]
        have hunfC : (callsPList (t :: ts) A).1
            = fun k => (callsP t A).1 k + (callsPList ts ((callsP t A).2 ++ A)).1 k := by
          simp [callsPList]
        rw [hunfL]
        simp only [hunfC]
        refine ⟨?_, ?_, ?_⟩
        · intro k
          rw [htsIH.1 k, htIH.1 k]
          omega
        · intro k
          rw [htsIH.2.1 k, htIH.2.1 k]
          by_cases h1 : 0 < (callsPList ts ((callsP t A).2 ++ A)).1 k
            <;> by_cases h2 : 0 < (callsP t A).1 k
            <;> simp [h1, h2]
        · rw [htsIH.2.2, htIH.2.2]

/-- A phase whose roots are successors of `i` neither calls nor opens
`i` (acyclicity from the strict size descent of `goodAt_succ`). -/
theorem callsSpecSub_below {V : Type} {D : Nat → FTree V} {i : Nat} (hgood : GoodAt D i)
    {S : List Nat} (hsub : ∀ x ∈ S, x ∈ succIds (D i)) {A : List Nat}
    {c : Nat → Nat} {nw : List Nat} (h : CallsSpecSub D S A c nw) :
    c i = 0 ∧ i ∉ nw :=
  callsSpecSub_far h (fun x hx => (goodAt_succ hgood (hsub x hx)).1) i
    (fun x hx => (goodAt_succ hgood (hsub x hx)).2)

/-- The `compute_` pass, specified: with `refs` holding the `callsC`
demand plus an external reserve `e`, with `F` the identities already
computed this pass (cache discipline `CacheInv`), with the in-progress
identities `P` receiving no calls from this subtree, and with the visited
list `A` matching `P ∪ F`, the pass succeeds, returns the denotation,
consumes exactly the demand, preserves the cache discipline with the
opened identities added to `F`, and bumps each opened identity's
evaluation counter exactly once (joint strong induction on size). -/
theorem computeF_spec_bundle {V : Type} (env : Env V) (D : Nat → FTree V) : ∀ n : Nat,
    (∀ t : FTree V, sizeOf t ≤ n → Resolves D t →
      ∀ (A F P : List Nat) (e : Nat → Nat) (s : St V),
      (∀ k, k ∈ A ↔ (k ∈ P ∨ k ∈ F)) →
      (∀ k, s.refs k = (callsC t A).1 k + e k) →
      (∀ k ∈ P, (callsC t A).1 k = 0) →
      (∀ k ∈ P, k ∉ F) →
      CacheInv env D F s →
      ∃ s', computeF env t s = .ok (denote env t, s')
        ∧ (∀ k, s'.refs k = e k)
        ∧ CacheInv env D ((callsC t A).2 ++ F) s'
        ∧ (∀ k, s'.evals k = s.evals k + (if k ∈ (callsC t A).2 then 1 else 0))
        ∧ s'.regs = s.regs)
    ∧ (∀ mo : Option (FTree V), sizeOf mo ≤ n → ResolvesMask D mo →
      ∀ (A F P : List Nat) (e : Nat → Nat) (s : St V),
      (∀ k, k ∈ A ↔ (k ∈ P ∨ k ∈ F)) →
      (∀ k, s.refs k = (callsCMask mo A).1 k + e k) →
      (∀ k ∈ P, (callsCMask mo A).1 k = 0) →
      (∀ k ∈ P, k ∉ F) →
      CacheInv env D F s →
      ∃ s', computeMask env mo s = .ok (denoteMask env mo, s')
        ∧ (∀ k, s'.refs k = e k)
        ∧ CacheInv env D ((callsCMask mo A).2 ++ F) s'
        ∧ (∀ k, s'.evals k = s.evals k + (if k ∈ (callsCMask mo A).2 then 1 else 0))
        ∧ s'.regs = s.regs)
    ∧ (∀ l : List (FTree V), sizeOf l ≤ n → ResolvesList D l →
      ∀ (selfGb : String) (selfWin : Nat) (maskGb maskName : String) (maskOut : Option V),
      ∀ (A F P : List Nat) (e : Nat → Nat) (s : St V),
      (∀ k, k ∈ A ↔ (k ∈ P ∨ k ∈ F)) →
      (∀ k, s.refs k = (callsCList l A).1 k + e k) →
      (∀ k ∈ P, (callsCList l A).1 k = 0) →
      (∀ k ∈ P, k ∉ F) →
      CacheInv env D F s →
      ∃ s', computeInputs env selfGb selfWin maskGb maskName maskOut l s =
          .ok (denoteInputs env selfGb selfWin maskGb maskName maskOut l, s')
        ∧ (∀ k, s'.refs k = e k)
        ∧ CacheInv env D ((callsCList l A).2 ++ F) s'
        ∧ (∀ k, s'.evals k = s.evals k + (if k ∈ (callsCList l A).2 then 1 else 0))
        ∧ s'.regs = s.regs) := by
  intro n
  induction n using Nat.strong_induction_on with
  | _ n ih =>
    refine ⟨?_, ?_, ?_⟩
    · intro t hsize hres A F P e s hA hrefs hP hPF hinv
      cases t with
      | const v =>
        refine ⟨s, by simp [computeF, denote], ?_, ?_, ?_, rfl⟩
        · intro k
          have := hrefs k
          simp [callsC] at this
          omega
        · have : (callsC (FTree.const v) A).2 = [] := by simp [callsC]
          rw [this]
          exact hinv
        · intro k
          have : (callsC (FTree.const v) A).2 = [] := by simp [callsC]
          simp [this]
      | node i ft w g inputs mask =>
        obtain ⟨hDi, hlist, hmask⟩ := resolves_node hres
        have hgood : GoodAt D i := ⟨by rw [hDi]; rfl, by rw [hDi]; exact hres⟩
        by_cases hi : i ∈ A
        · have hc : ∀ k, (callsC (FTree.node i ft w g inputs mask) A).1 k
              = if k = i then 1 else 0 := by
            intro k
            simp [callsC, hi]
          have hnw : (callsC (FTree.node i ft w g inputs mask) A).2 = [] := by
            simp [callsC, hi]
          rcases (hA i).mp hi with hiP | hiF
          · exfalso
            have h0 := hP i hiP
            rw [hc i] at h0
            simp at h0
          · have hrefsi : s.refs i = 1 + e i := by
              have h1 := hrefs i
              rw [hc i] at h1
              simp at h1
              omega
            have hne : ¬ s.refs i = 0 := by omega
            have hcache : s.cache i
                = some (denote env (FTree.node i ft w g inputs mask)) := by
              have h1 := hinv.1 i hiF
              rw [h1, if_pos (by omega), hDi]
            by_cases hei : e i = 0
            · have hz : s.refs i - 1 = 0 := by omega
              refine ⟨⟨fun k => if k = i then s.refs k - 1 else s.refs k,
                       fun k => if k = i then none else s.cache k, s.evals, s.regs⟩,
                      ?_, ?_, ?_, ?_, rfl⟩
              · rw [computeF]
                simp [hne, hcache, hz]
              · intro k
                have hk2 := hrefs k
                rw [hc k] at hk2
                by_cases hk : k = i
                · subst hk
                  simp at hk2 ⊢
                  omega
                · simp only [if_neg hk] at hk2 ⊢
                  omega
              · rw [hnw]
                constructor
                · intro k hk
                  by_cases hk' : k = i
                  · subst hk'
                    show (if k = k then none else s.cache k)
                        = if 0 < (if k = k then s.refs k - 1 else s.refs k) then
                            some (denote env (D k)) else none
                    simp [hz]
                  · show (if k = i then none else s.cache k)
                        = if 0 < (if k = i then s.refs k - 1 else s.refs k) then
                            some (denote env (D k)) else none
                    rw [if_neg hk', if_neg hk']
                    exact hinv.1 k hk
                · intro k hk
                  by_cases hk' : k = i
                  · subst hk'
                    simp
                  · show (if k = i then none else s.cache k) = none
                    rw [if_neg hk']
                    exact hinv.2 k hk
              · intro k
                rw [hnw]
                simp
            · have hz : ¬ s.refs i - 1 = 0 := by omega
              refine ⟨⟨fun k => if k = i then s.refs k - 1 else s.refs k,
                       s.cache, s.evals, s.regs⟩, ?_, ?_, ?_, ?_, rfl⟩
              · rw [computeF]
                simp [hne, hcache, hz]
              · intro k
                have hk2 := hrefs k
                rw [hc k] at hk2
                by_cases hk : k = i
                · subst hk
                  simp at hk2 ⊢
                  omega
                · simp only [if_neg hk] at hk2 ⊢
                  omega
              · rw [hnw]
                constructor
                · intro k hk
                  by_cases hk' : k = i
                  · subst hk'
                    show s.cache k
                        = if 0 < (if k = k then s.refs k - 1 else s.refs k) then
                            some (denote env (D k)) else none
                    rw [if_pos rfl, if_pos (by omega), hDi]
                    exact hcache
                  · show s.cache k
                        = if 0 < (if k = i then s.refs k - 1 else s.refs k) then
                            some (denote env (D k)) else none
                    rw [if_neg hk']
                    exact hinv.1 k hk
                · intro k hk
                  have hk' : ¬ k = i := fun hc' => hk (hc' ▸ hiF)
                  show s.cache k = none
                  exact hinv.2 k hk
              · intro k
                rw [hnw]
                simp
        · have hiP : i ∉ P := fun hc' => hi ((hA i).mpr (Or.inl hc'))
          have hiF : i ∉ F := fun hc' => hi ((hA i).mpr (Or.inr hc'))
          have hc : ∀ k, (callsC (FTree.node i ft w g inputs mask) A).1 k
              = (if k = i then 1 else 0) + (callsCMask mask (i :: A)).1 k
                + (callsCList inputs ((callsCMask mask (i :: A)).2 ++ i :: A)).1 k := by
            intro k
            simp [callsC, hi]
          have hnw : (callsC (FTree.node i ft w g inputs mask) A).2
              = (callsCList inputs ((callsCMask mask (i :: A)).2 ++ i :: A)).2
                ++ (callsCMask mask (i :: A)).2 ++ [i] := by
            simp [callsC, hi]
          have specm := callsCMask_spec hmask (i :: A)
          have speci := callsCList_spec hlist ((callsCMask mask (i :: A)).2 ++ i :: A)
          have hsubm : ∀ x ∈ maskIds mask, x ∈ succIds (D i) := by
            intro x hx
            rw [hDi, succIds]
            exact List.mem_append.mpr (Or.inl hx)
          have hsubi : ∀ x ∈ inputs.filterMap FTree.idOf, x ∈ succIds (D i) := by
            intro x hx
            rw [hDi, succIds]
            exact List.mem_append.mpr (Or.inr hx)
          have hfarm := callsSpecSub_below hgood hsubm specm
          have hfari := callsSpecSub_below hgood hsubi speci
          have hrefsi : s.refs i = 1 + e i := by
            have h1 := hrefs i
            rw [hc i, hfarm.1, hfari.1] at h1
            simp at h1
            omega
          have hne : ¬ s.refs i = 0 := by omega
          have hcache0 : s.cache i = none := hinv.2 i hiF
          have hszm : sizeOf mask < n := lt_of_lt_of_le sizeOf_maskfield_lt hsize
          have hszl : sizeOf inputs < n := lt_of_lt_of_le sizeOf_inputsfield_lt hsize
          obtain ⟨s2, hm_run, hm_refs, hm_inv, hm_evals, hm_regs⟩ :=
            ((ih (sizeOf mask) hszm).2.1) mask (le_refl _) hmask (i :: A) F (i :: P)
              (fun k => (callsCList inputs ((callsCMask mask (i :: A)).2 ++ i :: A)).1 k + e k)
              ⟨fun k => if k = i then s.refs k - 1 else s.refs k, s.cache, s.evals, s.regs⟩
              (fun k => by
                simp only [List.mem_cons]
                rw [hA k]
                tauto)
              (fun k => by
                show (if k = i then s.refs k - 1 else s.refs k)
                  = (callsCMask mask (i :: A)).1 k
                    + ((callsCList inputs ((callsCMask mask (i :: A)).2 ++ i :: A)).1 k + e k)
                have h1 := hrefs k
                rw [hc k] at h1
                by_cases hk : k = i
                · subst hk
                  rw [if_pos rfl] at h1 ⊢
                  rw [hfarm.1, hfari.1] at h1 ⊢
                  omega
                · rw [if_neg hk] at h1 ⊢
                  omega)
              (fun k hk => by
                rcases List.mem_cons.mp hk with hk1 | hk1
                · subst hk1
                  exact hfarm.1
                · have h1 := hP k hk1
                  rw [hc k] at h1
                  omega)
              (fun k hk => by
                rcases List.mem_cons.mp hk with hk1 | hk1
                · subst hk1
                  exact hiF
                · exact hPF k hk1)
              (by
                constructor
                · intro k hk
                  have hki : ¬ k = i := fun hc' => hiF (hc' ▸ hk)
                  show s.cache k
                      = if 0 < (if k = i then s.refs k - 1 else s.refs k) then
                          some (denote env (D k)) else none
                  rw [if_neg hki]
                  exact hinv.1 k hk
                · intro k hk
                  exact hinv.2 k hk)
          obtain ⟨s3, hi_run, hi_refs, hi_inv, hi_evals, hi_regs⟩ :=
            ((ih (sizeOf inputs) hszl).2.2) inputs (le_refl _) hlist g w
              (maskGroupby mask) (maskFtype mask) (denoteMask env mask)
              ((callsCMask mask (i :: A)).2 ++ i :: A)
              ((callsCMask mask (i :: A)).2 ++ F) (i :: P) e s2
              (fun k => by
                simp only [List.mem_append, List.mem_cons]
                rw [hA k]
                tauto)
              hm_refs
              (fun k hk => by
                rcases List.mem_cons.mp hk with hk1 | hk1
                · subst hk1
                  exact hfari.1
                · have h1 := hP k hk1
                  rw [hc k] at h1
                  omega)
              (fun k hk => by
                intro hkm
                rcases List.mem_append.mp hkm with h1 | h1
                · rcases List.mem_cons.mp hk with hk1 | hk1
                  · subst hk1
                    exact hfarm.2 h1
                  · exact specm.2.1 k h1 (List.mem_cons.mpr (Or.inr ((hA k).mpr (Or.inl hk1))))
                · rcases List.mem_cons.mp hk with hk1 | hk1
                  · subst hk1
                    exact hiF h1
                  · exact hPF k hk1 h1)
              hm_inv
          have hden : denote env (FTree.node i ft w g inputs mask)
              = env.applyF ft (denoteInputs env g w (maskGroupby mask) (maskFtype mask)
                  (denoteMask env mask) inputs) := by
            rw [denote]
          have hdisj : ∀ k, k ∈ (callsCList inputs ((callsCMask mask (i :: A)).2 ++ i :: A)).2
              → k ∉ (callsCMask mask (i :: A)).2 := by
            intro k hk hkm
            exact speci.2.1 k hk (List.mem_append.mpr (Or.inl hkm))
          by_cases hei : e i = 0
          · have h30 : s3.refs i = 0 := by rw [hi_refs i]; exact hei
            refine ⟨⟨s3.refs, s3.cache,
                     fun k => if k = i then s3.evals k + 1 else s3.evals k, s3.regs⟩,
                    ?_, hi_refs, ?_, ?_, by show s3.regs = s.regs; rw [hi_regs, hm_regs]⟩
            · rw [computeF]
              simp [hne, hcache0, hm_run, hi_run, h30, hden]
            · rw [hnw]
              constructor
              · intro k hk
                show s3.cache k = if 0 < s3.refs k then some (denote env (D k)) else none
                by_cases hk' : k = i
                · rw [hk']
                  have hnotk : i ∉ (callsCList inputs ((callsCMask mask (i :: A)).2 ++ i :: A)).2
                      ++ ((callsCMask mask (i :: A)).2 ++ F) := by
                    intro hc'
                    rcases List.mem_append.mp hc' with h1 | h1
                    · exact hfari.2 h1
                    · rcases List.mem_append.mp h1 with h2 | h2
                      · exact hfarm.2 h2
                      · exact hiF h2
                  rw [hi_inv.2 i hnotk, if_neg (by omega)]
                · simp only [List.mem_append, List.mem_singleton] at hk
                  refine hi_inv.1 k ?_
                  simp only [List.mem_append]
                  tauto
              · intro k hk
                simp only [List.mem_append, List.mem_singleton] at hk
                push_neg at hk
                show s3.cache k = none
                refine hi_inv.2 k ?_
                simp only [List.mem_append]
                tauto
            · intro k
              rw [hnw]
              show (if k = i then s3.evals k + 1 else s3.evals k)
                  = s.evals k + (if k ∈ (callsCList inputs ((callsCMask mask (i :: A)).2 ++ i :: A)).2
                      ++ (callsCMask mask (i :: A)).2 ++ [i] then 1 else 0)
              rw [hi_evals k, hm_evals k]
              show (if k = i then (s.evals k + _ + _ + 1 : Nat) else s.evals k + _ + _) = _
              simp only [List.mem_append, List.mem_singleton]
              by_cases hk : k = i
              · subst hk
                simp [hfari.2, hfarm.2]
              · by_cases h1 : k ∈ (callsCMask mask (i :: A)).2
                · have h3 : k ∉ (callsCList inputs ((callsCMask mask (i :: A)).2 ++ i :: A)).2 :=
                    fun hc' => hdisj k hc' h1
                  simp [hk, h1, h3]
                · by_cases h2 : k ∈ (callsCList inputs ((callsCMask mask (i :: A)).2 ++ i :: A)).2
                  · simp [hk, h1, h2]
                  · simp [hk, h1, h2]
          · have h30 : 0 < s3.refs i := by rw [hi_refs i]; omega
            refine ⟨⟨s3.refs,
                     fun k => if k = i then
                         some (env.applyF ft (denoteInputs env g w (maskGroupby mask)
                           (maskFtype mask) (denoteMask env mask) inputs))
                       else s3.cache k,
                     fun k => if k = i then s3.evals k + 1 else s3.evals k, s3.regs⟩,
                    ?_, hi_refs, ?_, ?_, by show s3.regs = s.regs; rw [hi_regs, hm_regs]⟩
            · rw [computeF]
              simp [hne, hcache0, hm_run, hi_run, h30, hden]
            · rw [hnw]
              constructor
              · intro k hk
                by_cases hk' : k = i
                · subst hk'
                  show (if k = k then some _ else s3.cache k)
                      = if 0 < s3.refs k then some (denote env (D k)) else none
                  rw [if_pos rfl, if_pos h30, hDi, hden]
                · show (if k = i then some _ else s3.cache k)
                      = if 0 < s3.refs k then some (denote env (D k)) else none
                  rw [if_neg hk']
                  simp only [List.mem_append, List.mem_singleton] at hk
                  refine hi_inv.1 k ?_
                  simp only [List.mem_append]
                  tauto
              · intro k hk
                simp only [List.mem_append, List.mem_singleton] at hk
                push_neg at hk
                show (if k = i then some _ else s3.cache k) = none
                rw [if_neg hk.1.2]
                refine hi_inv.2 k ?_
                simp only [List.mem_append]
                tauto
            · intro k
              rw [hnw]
              show (if k = i then s3.evals k + 1 else s3.evals k)
                  = s.evals k + (if k ∈ (callsCList inputs ((callsCMask mask (i :: A)).2 ++ i :: A)).2
                      ++ (callsCMask mask (i :: A)).2 ++ [i] then 1 else 0)
              rw [hi_evals k, hm_evals k]
              show (if k = i then (s.evals k + _ + _ + 1 : Nat) else s.evals k + _ + _) = _
              simp only [List.mem_append, List.mem_singleton]
              by_cases hk : k = i
              · subst hk
                simp [hfari.2, hfarm.2]
              · by_cases h1 : k ∈ (callsCMask mask (i :: A)).2
                · have h3 : k ∉ (callsCList inputs ((callsCMask mask (i :: A)).2 ++ i :: A)).2 :=
                    fun hc' => hdisj k hc' h1
                  simp [hk, h1, h3]
                · by_cases h2 : k ∈ (callsCList inputs ((callsCMask mask (i :: A)).2 ++ i :: A)).2
                  · simp [hk, h1, h2]
                  · simp [hk, h1, h2]
    · intro mo hsize hres A F P e s hA hrefs hP hPF hinv
      cases mo with
      | none =>
        refine ⟨s, by simp [computeMask, denoteMask], ?_, ?_, ?_, rfl⟩
        · intro k
          have := hrefs k
          simp [callsCMask] at this
          omega
        · have : (callsCMask (none : Option (FTree V)) A).2 = [] := by simp [callsCMask]
          rw [this]
          exact hinv
        · intro k
          have : (callsCMask (none : Option (FTree V)) A).2 = [] := by simp [callsCMask]
          simp [this]
      | some m =>
        rw [ResolvesMask] at hres
        have hszm : sizeOf m < n := by
          have : sizeOf m < sizeOf (some m) := by
            rw [Option.some.sizeOf_spec]
            omega
          omega
        have hCeq : callsCMask (some m) A = callsC m A := by simp [callsCMask]
        rw [hCeq] at hrefs hP
        obtain ⟨s', hrun, hrefs', hinv', hevals', hregs'⟩ :=
          ((ih (sizeOf m) hszm).1) m (le_refl _) hres A F P e s hA hrefs hP hPF hinv
        refine ⟨s', ?_, hrefs', by rw [hCeq]; exact hinv', ?_, hregs'⟩
        · simp [computeMask, hrun, denoteMask]
        · intro k
          rw [hCeq]
          exact hevals' k
    · intro l hsize hres selfGb selfWin maskGb maskName maskOut A F P e s hA hrefs hP hPF hinv
      cases l with
      | nil =>
        refine ⟨s, by simp [computeInputs, denoteInputs], ?_, ?_, ?_, rfl⟩
        · intro k
          have := hrefs k
          simp [callsCList] at this
          omega
        · have : (callsCList ([] : List (FTree V)) A).2 = [] := by simp [callsCList]
          rw [this]
          exact hinv
        · intro k
          have : (callsCList ([] : List (FTree V)) A).2 = [] := by simp [callsCList]
          simp [this]
      | cons t ts =>
        rw [ResolvesList] at hres
        have hszt : sizeOf t < n := by
          have : sizeOf t < sizeOf (t :: ts) := by
            rw [List.cons.sizeOf_spec]
            omega
          omega
        have hszts : sizeOf ts < n := by
          have : sizeOf ts < sizeOf (t :: ts) := by
            rw [List.cons.sizeOf_spec]
            omega
          omega
        cases t with
        | const v =>
          have hc : ∀ k, (callsCList (FTree.const v :: ts) A).1 k = (callsCList ts A).1 k := by
            intro k
            simp [callsCList, callsC]
          have hnw : (callsCList (FTree.const v :: ts) A).2 = (callsCList ts A).2 := by
            simp [callsCList, callsC]
          obtain ⟨s', hrun, hrefs', hinv', hevals', hregs'⟩ :=
            ((ih (sizeOf ts) hszts).2.2) ts (le_refl _) hres.2 selfGb selfWin maskGb maskName
              maskOut A F P e s hA (fun k => by rw [hrefs k, hc k]) (fun k hk => by
                have := hP k hk
                rw [hc k] at this
                exact this) hPF hinv
          refine ⟨s', ?_, hrefs', ?_, ?_, hregs'⟩
          · simp [computeInputs, hrun, denoteInputs]
          · rw [hnw]
            exact hinv'
          · intro k
            rw [hnw]
            exact hevals' k
        | node j uft uwin ugb uins umask =>
          have hresu := hres.1
          have hrests := hres.2
          have hc : ∀ k, (callsCList (FTree.node j uft uwin ugb uins umask :: ts) A).1 k
              = (callsC (FTree.node j uft uwin ugb uins umask) A).1 k
                + (callsCList ts ((callsC (FTree.node j uft uwin ugb uins umask) A).2 ++ A)).1 k := by
            intro k
            simp [callsCList]
          have hnw : (callsCList (FTree.node j uft uwin ugb uins umask :: ts) A).2
              = (callsCList ts ((callsC (FTree.node j uft uwin ugb uins umask) A).2 ++ A)).2
                ++ (callsC (FTree.node j uft uwin ugb uins umask) A).2 := by
            simp [callsCList]
          have specu := callsC_spec hresu A
          have spects := callsCList_spec hrests ((callsC (FTree.node j uft uwin ugb uins umask) A).2 ++ A)
          have hPts : ∀ k ∈ P,
              (callsCList ts ((callsC (FTree.node j uft uwin ugb uins umask) A).2 ++ A)).1 k = 0 := by
            intro k hk
            have := hP k hk
            rw [hc k] at this
            omega
          obtain ⟨s', hu_run, hu_refs, hu_inv, hu_evals, hu_regs⟩ :=
            ((ih (sizeOf (FTree.node j uft uwin ugb uins umask)) hszt).1)
              (FTree.node j uft uwin ugb uins umask) (le_refl _) hresu A F P
              (fun k => (callsCList ts ((callsC (FTree.node j uft uwin ugb uins umask) A).2 ++ A)).1 k + e k)
              s hA (fun k => by
                show s.refs k = (callsC (FTree.node j uft uwin ugb uins umask) A).1 k
                  + ((callsCList ts ((callsC (FTree.node j uft uwin ugb uins umask) A).2 ++ A)).1 k + e k)
                rw [hrefs k, hc k]
                omega) (fun k hk => by
                have := hP k hk
                rw [hc k] at this
                omega) hPF hinv
          obtain ⟨s'', hts_run, hts_refs, hts_inv, hts_evals, hts_regs⟩ :=
            ((ih (sizeOf ts) hszts).2.2) ts (le_refl _) hrests selfGb selfWin maskGb maskName
              maskOut ((callsC (FTree.node j uft uwin ugb uins umask) A).2 ++ A)
              ((callsC (FTree.node j uft uwin ugb uins umask) A).2 ++ F) P e s'
              (fun k => by
                simp only [List.mem_append]
                rw [hA k]
                tauto)
              hu_refs hPts
              (fun k hk => by
                intro hkm
                rcases List.mem_append.mp hkm with h1 | h1
                · exact specu.2.1 k h1 ((hA k).mpr (Or.inl hk))
                · exact hPF k hk h1)
              hu_inv
          refine ⟨s'', ?_, hts_refs, ?_, ?_, by rw [hts_regs, hu_regs]⟩
          · simp only [computeInputs, hu_run, hts_run, denoteInputs]
          · rw [hnw, List.append_assoc]
            exact hts_inv
          · intro k
            rw [hts_evals k, hu_evals k, hnw]
            by_cases h1 : k ∈ (callsC (FTree.node j uft uwin ugb uins umask) A).2
            · have h2 : k ∉ (callsCList ts ((callsC (FTree.node j uft uwin ugb uins umask) A).2 ++ A)).2 := by
                intro hk2
                exact spects.2.1 k hk2 (List.mem_append.mpr (Or.inl h1))
              simp [h1, h2]
            · by_cases h2 : k ∈ (callsCList ts ((callsC (FTree.node j uft uwin ugb uins umask) A).2 ++ A)).2
              · simp [h1, h2]
              · simp [h1, h2]

/-- A list with two distinct members whose images are positive has map
sum at least two. -/
theorem two_le_sum_map {f : Nat → Nat} {l : List Nat} {p1 p2 : Nat}
    (h1 : p1 ∈ l) (h2 : p2 ∈ l) (hne : p1 ≠ p2)
    (hf1 : 0 < f p1) (hf2 : 0 < f p2) : 2 ≤ (l.map f).sum := by
  have hperm : l.Perm (p1 :: l.erase p1) := List.perm_cons_erase h1
  have h2' : p2 ∈ l.erase p1 := (List.mem_erase_of_ne (Ne.symm hne)).mpr h2
  have hsum : (l.map f).sum = f p1 + ((l.erase p1).map f).sum := by
    rw [List.Perm.sum_eq (List.Perm.map f hperm)]
    simp
  have hle : f p2 ≤ ((l.erase p1).map f).sum :=
    List.single_le_sum (fun x _ => Nat.zero_le x) _ (List.mem_map_of_mem _ h2')
  omega

/-- One full execution pass from the clean state: `pre_compute_` loads
the reference counts, then `compute_` succeeds with the pure denotation,
consumes every reference, leaves every cache slot empty, and has invoked
each visited node's `compute` exactly once. -/
theorem run_pass {V : Type} (env : Env V) (D : Nat → FTree V) {t : FTree V}
    (hres : Resolves D t) :
    ∃ s', computeF env t (preCompute t (cleanSt V)) = .ok (denote env t, s')
      ∧ (∀ k, s'.refs k = 0)
      ∧ (∀ k, s'.cache k = none)
      ∧ (∀ k, s'.evals k = if k ∈ (callsC t []).2 then 1 else 0) := by
  have hall : ∀ k, 0 < (cleanSt V).refs k ↔ k ∈ ([] : List Nat) := by
    intro k
    simp [cleanSt]
  obtain ⟨hpre_refs, hpre_cache, hpre_evals⟩ :=
    (preCompute_spec_bundle D (sizeOf t)).1 t (le_refl _) hres [] (cleanSt V) hall
  have hbridge := calls_bridge hres ([] : List Nat)
  obtain ⟨s', hrun, hrefs', hinv', hevals', hregs'⟩ :=
    (computeF_spec_bundle env D (sizeOf t)).1 t (le_refl _) hres [] [] [] (fun _ => 0)
      (preCompute t (cleanSt V))
      (by intro k; simp)
      (by intro k; rw [hpre_refs k, hbridge.1 k]; simp [cleanSt])
      (by intro k hk; cases hk)
      (by intro k hk; cases hk)
      (by
        constructor
        · intro k hk
          cases hk
        · intro k _
          rw [hpre_cache k]
          simp [cleanSt])
  refine ⟨s', hrun, hrefs', ?_, ?_⟩
  · intro k
    by_cases hk : k ∈ (callsC t []).2
    · have hk2 : k ∈ (callsC t []).2 ++ [] := by simp [hk]
      rw [hinv'.1 k hk2, if_neg (by rw [hrefs' k]; omega)]
    · have hk2 : k ∉ (callsC t []).2 ++ [] := by simp [hk]
      exact hinv'.2 k hk2
  · intro k
    rw [hevals' k, hpre_evals]
    simp [cleanSt]

/-- The witness diamond is consistently labelled. -/
theorem wR_resolves : Resolves wD wR := by
  simp [Resolves, ResolvesList, ResolvesMask, wR, wA, wB, wN, wD]

/-- C1: single evaluation under fan-out.  If the identity `N` is a
declared input (successor) of two distinct nodes `p1 ≠ p2` visited by the
pass, then after one `pre_compute_` pass `N` carries at least two
references, and the `compute_` pass succeeds having invoked `N`'s own
`compute` exactly once (`evals N = 1` — later consumers read the cache),
with the cache slot released (`none`) once the last reference is gone
(`refs N = 0`). -/
theorem c1_single_evaluation {V : Type} (env : Env V) (D : Nat → FTree V) {t : FTree V}
    (hres : Resolves D t) {p1 p2 N : Nat}
    (hp1 : p1 ∈ (callsC t []).2) (hp2 : p2 ∈ (callsC t []).2) (hne : p1 ≠ p2)
    (hN1 : N ∈ succIds (D p1)) (hN2 : N ∈ succIds (D p2)) :
    2 ≤ (preCompute t (cleanSt V)).refs N
    ∧ ∃ s', computeF env t (preCompute t (cleanSt V)) = .ok (denote env t, s')
      ∧ s'.evals N = 1 ∧ s'.refs N = 0 ∧ s'.cache N = none := by
  have hC := callsC_spec hres ([] : List Nat)
  have hcount := hC.2.2.2.2.2.1 N
  have hsum : 2 ≤ (((callsC t []).2).map fun j => (succIds (D j)).count N).sum :=
    two_le_sum_map hp1 hp2 hne (List.count_pos_iff.mpr hN1) (List.count_pos_iff.mpr hN2)
  have h2 : 2 ≤ (callsC t []).1 N := by
    rw [hcount]
    omega
  have hNopen : N ∈ (callsC t []).2 := by
    have := hC.2.2.2.2.1 p1 hp1 N hN1
    simpa using this
  constructor
  · have hpre := (preCompute_spec_bundle D (sizeOf t)).1 t (le_refl _) hres [] (cleanSt V)
      (by intro k; simp [cleanSt])
    rw [hpre.1 N, (calls_bridge hres ([] : List Nat)).1 N]
    simp [cleanSt]
    omega
  · obtain ⟨s', hrun, hrefs', hcache', hevals'⟩ := run_pass env D hres
    exact ⟨s', hrun, by rw [hevals' N, if_pos hNopen], hrefs' N, hcache' N⟩

/-- C1 witness: in the diamond `wR` (where `wN`, identity `0`, feeds both
`wA`, identity `1`, and `wB`, identity `2`), the pre-pass leaves two
references on `wN`, and the compute pass evaluates it once, ending with
its reference count zero and its cache slot empty. -/
theorem c1_witness :
    2 ≤ (preCompute wR (cleanSt Nat)).refs 0
    ∧ ∃ s', computeF wEnv wR (preCompute wR (cleanSt Nat)) = .ok (denote wEnv wR, s')
      ∧ s'.evals 0 = 1 ∧ s'.refs 0 = 0 ∧ s'.cache 0 = none := by
  have hopen : (callsC wR []).2 = [2, 0, 1, 3] := by
    simp [callsC, callsCMask, callsCList, wR, wA, wB, wN]
  refine @c1_single_evaluation Nat wEnv wD wR wR_resolves 1 2 0 ?_ ?_ (by decide) ?_ ?_
  · rw [hopen]
    simp
  · rw [hopen]
    simp
  · simp [wD, wA, wN, succIds, maskIds, FTree.idOf]
  · simp [wD, wB, wN, succIds, maskIds, FTree.idOf]

/-- C2: reference-count protocol.  A well-formed pairing of one
`pre_compute_` pass with its `compute_` pass never trips the negativity
guard — the pass returns a value; and invoking `compute_` on any node
whose reference count is already `0` (as when a subclass overrides
`pre_compute_` without the `super()` accounting) raises the fatal
reference-count protocol error instead of returning a value. -/
theorem c2_refcount_protocol {V : Type} (env : Env V) (D : Nat → FTree V) {t : FTree V}
    (hres : Resolves D t) :
    (∃ s', computeF env t (preCompute t (cleanSt V)) = .ok (denote env t, s'))
    ∧ (∀ (i : Nat) (ft : String) (w : Nat) (g : String) (inputs : List (FTree V))
        (mask : Option (FTree V)) (s : St V), s.refs i = 0 →
        computeF env (FTree.node i ft w g inputs mask) s
          = .error "Reference count error: Maybe you override pre_compute_, but did not call super() method.") := by
  constructor
  · obtain ⟨s', hrun, _⟩ := run_pass env D hres
    exact ⟨s', hrun⟩
  · intro i ft w g inputs mask s h0
    rw [computeF]
    simp [h0]

/-- C2 witness: the diamond's paired passes return a value, while calling
`compute_` on the root from the clean state (no `pre_compute_`, so its
reference count is `0`) raises the reference-count error. -/
theorem c2_witness :
    (∃ s', computeF wEnv wR (preCompute wR (cleanSt Nat)) = .ok (denote wEnv wR, s'))
    ∧ computeF wEnv wR (cleanSt Nat)
      = .error "Reference count error: Maybe you override pre_compute_, but did not call super() method." :=
  ⟨(c2_refcount_protocol wEnv wD wR_resolves).1,
   (c2_refcount_protocol wEnv wD wR_resolves).2 3 "Root" 1 "asset" [wA, wB] none
     (cleanSt Nat) rfl⟩

/-- C8 witness: with a window of 2 and an all-false mask, the rolled
input is missing everywhere. -/
theorem c8_witness :
    formatInput (mkTensorEnv (fun _ _ => TVal.t2 fun _ _ => none) (fun v _ _ => v)
        (fun v _ => v)) "date" 2 "date" "Up" (.t2 fun _ _ => some 1) "date" "Mask"
      (some (.tb fun _ _ => false)) = .t3 fun _ _ _ => none :=
  c8_input_reformatting.2.2.2 (fun _ _ => TVal.t2 fun _ _ => none) (fun v _ _ => v)
    (fun v _ => v) (fun _ _ => some 1) "date" "Up" "Mask" 2 (by decide)

end Spectre
